import Mathlib

/-!
Verification of the Header Field Upsert Engine of the Auto Timestamps plugin
(`src/main.ts`).  The engine consists of two functions:

* `hasTimeProperty(content, property)` (src/main.ts lines 119-124): matches
  `^---\n([\s\S]*?)\n---` against `content`, takes capture group 1 (or `''`
  when there is no match), and tests `new RegExp("^" + property + ":.*$", "m")`
  against it.

* `insertFrontMatter(content, data)` (src/main.ts lines 189-211): extracts the
  same capture group, then for each `(key, value)` entry of `data` either
  replaces the first line matching `/^key:.*$/m` in the accumulating front
  matter with `key + ": " + value`, or appends `"\n" + key + ": " + value`;
  finally, if the original capture group was non-empty (JavaScript truthiness),
  it replaces the matched region of `content` with
  `"---\n" + newFrontMatter.trim() + "\n---"`, otherwise it returns
  `"---\n" + newFrontMatter.trim() + "\n---\n\n" + content`.

The shallow embedding below models documents as `List Char`.  Modelling
conventions (noted where they apply):

* The lazy regex `^---\n([\s\S]*?)\n---` is anchored at the start of the
  string (no `m` flag on it), so it matches iff the content starts with the
  four characters `---\n` and the substring `\n---` occurs later; the capture
  group is everything strictly between the opening `---\n` and the *first*
  subsequent occurrence of `\n---`.  This is modelled by `matchFrontMatter`.

* The property name interpolated into `new RegExp("^" + property + ":.*$")` is
  treated as literal text.  The call sites only ever pass the literal names
  `"created"` and `"modified"`, which contain no regex metacharacters, so the
  model is exact for every name the program uses.

* `^`/`$` in JavaScript multiline mode also treat `\r` and the Unicode line
  separators U+2028/U+2029 as line terminators, and `$`-patterns in replacement strings are expanded.
  Documents and mapping entries are modelled with `\n` as the only line
  terminator and replacement text as literal; the timestamp values produced by
  the plugin (`YYYY-MM-DD HH:mm:ss`) contain neither `\r` nor `$`.

* `String.prototype.trim` removes leading and trailing JavaScript whitespace;
  on the character set at hand these are space, tab, newline, carriage return,
  vertical tab and form feed.  This is modelled by `jsTrim`.
-/

namespace AutoTimestamps

/-- Whitespace characters removed by JavaScript `String.prototype.trim`
(restricted to the ASCII range appearing in documents). -/
def isJsWS (c : Char) : Bool :=
  c = ' ' || c = '\t' || c = '\n' || c = '\r' || c = '\x0b' || c = '\x0c'

/-- Drop trailing whitespace characters: the right half of `trim`. -/
def dtw (cs : List Char) : List Char :=
  (cs.reverse.dropWhile isJsWS).reverse

/-- Model of JavaScript `String.prototype.trim`: drop leading and trailing
whitespace. -/
def jsTrim (cs : List Char) : List Char :=
  dtw (cs.dropWhile isJsWS)

/-- The four characters `\n---`: a closing front-matter marker as matched by
the `\n---` tail of the regex `^---\n([\s\S]*?)\n---`. -/
def nlMarker : List Char := ['\n', '-', '-', '-']

/-- The four characters `---\n`: the opening marker, i.e. the `^---\n` head of
the regex. -/
def openMarker : List Char := ['-', '-', '-', '\n']

/-- The three characters `---`. -/
def threeDashes : List Char := ['-', '-', '-']

/-- Split a string at the *first* occurrence of the substring `\n---`
(the behaviour of the lazy group `([\s\S]*?)` followed by `\n---`): returns
the part before the occurrence and the part after it, or `none` when the
substring does not occur. -/
def splitAtMarker : List Char → Option (List Char × List Char)
  | [] => none
  | c :: cs =>
    if nlMarker.isPrefixOf (c :: cs) then some ([], cs.drop 3)
    else
      match splitAtMarker cs with
      | some (pre, post) => some (c :: pre, post)
      | none => none

/-- Model of matching `^---\n([\s\S]*?)\n---` against `content`
(src/main.ts lines 120 and 190): the match succeeds iff the content starts
with `---\n` and `\n---` occurs in the remainder; on success it returns the
capture group (the text strictly between the markers) and the text after the
matched region. -/
def matchFrontMatter (content : List Char) : Option (List Char × List Char) :=
  if openMarker.isPrefixOf content then splitAtMarker (content.drop 4)
  else none

/-- Capture group 1 of the front-matter regex, defaulted to the empty string:
the JavaScript expression `content.match(frontMatterRegex)?.[1] || ''`. -/
def innerContents (content : List Char) : List Char :=
  ((matchFrontMatter content).map Prod.fst).getD []

/-- The text after the matched front-matter region (the whole content when the
regex does not match). -/
def bodyAfter (content : List Char) : List Char :=
  ((matchFrontMatter content).map Prod.snd).getD content

/-- Split a string into its lines at `\n` (keeping empty lines); the list of
positions at which JavaScript multiline `^` anchors. -/
def splitLines : List Char → List (List Char)
  | [] => [[]]
  | c :: cs =>
    if c = '\n' then [] :: splitLines cs
    else
      match splitLines cs with
      | [] => [[c]]
      | l :: ls => (c :: l) :: ls

/-- Rejoin lines with `\n`: the inverse of `splitLines`. -/
def joinLines : List (List Char) → List Char
  | [] => []
  | [l] => l
  | l :: ls => l ++ '\n' :: joinLines ls

/-- The text `key:` that a line must start with to match `/^key:.*$/m`. -/
def keyPrefix (k : List Char) : List Char := k ++ [':']

/-- The canonical field line `key: value` written by the engine. -/
def fieldLine (k v : List Char) : List Char := k ++ ':' :: ' ' :: v

/-- Whether a (single) line matches `/^key:.*$/m`, with the key taken as
literal text: the line starts with `key:`. -/
def keyMatches (k l : List Char) : Bool := (keyPrefix k).isPrefixOf l

/-- Model of `new RegExp("^" + property + ":.*$", "m").test(fm)`
(src/main.ts lines 122-123 and 197-198): some line of `fm` starts with
`property:`. -/
def testProp (property fm : List Char) : Bool :=
  (splitLines fm).any (keyMatches property)

/-- Replace the first line matching `/^key:.*$/m` by the line `key: value`;
identity when no line matches. -/
def replaceLine (k v : List Char) : List (List Char) → List (List Char)
  | [] => []
  | l :: ls =>
    if keyMatches k l then fieldLine k v :: ls
    else l :: replaceLine k v ls

/-- Model of `fm.replace(new RegExp("^" + key + ":.*$", "m"), key + ": " + value)`
(src/main.ts line 199): the first matching line — the regex match spans the
whole line — is replaced by `key: value`. -/
def replaceProp (k v fm : List Char) : List Char :=
  joinLines (replaceLine k v (splitLines fm))

/-- One iteration of the `for (const key in data)` loop of `insertFrontMatter`
(src/main.ts lines 195-203): the presence test runs against the *original*
front matter `fm0`, the replacement against the accumulating string. -/
def upsertOne (fm0 : List Char) (acc : List Char) (kv : List Char × List Char) :
    List Char :=
  if testProp kv.1 fm0 then replaceProp kv.1 kv.2 acc
  else acc ++ '\n' :: fieldLine kv.1 kv.2

/-- The accumulated `newFrontMatter` after the whole loop, starting from the
extracted front matter `fm0`. -/
def buildFrontMatter (fm0 : List Char) (data : List (List Char × List Char)) :
    List Char :=
  data.foldl (upsertOne fm0) fm0

/-- Model of `hasTimeProperty(content, property)` (src/main.ts lines 119-124). -/
def hasTimeProperty (content property : List Char) : Bool :=
  testProp property (innerContents content)

/-- The six characters `\n---\n\n` closing a freshly prepended block. -/
def closeNl : List Char := ['\n', '-', '-', '-', '\n', '\n']

/-- Model of `insertFrontMatter(content, data)` (src/main.ts lines 189-211).
When the extracted front matter is non-empty (JavaScript truthiness of the
string `frontMatter`), `content.replace(frontMatterRegex, ...)` replaces the
matched region `---\n<fm>\n---` with `---\n<trimmed new front matter>\n---`,
leaving the text after the region untouched; otherwise the template
`` `---\n${newFrontMatter.trim()}\n---\n\n${content}` `` prepends a fresh
block in front of the whole original content. -/
def insertFrontMatter (content : List Char)
    (data : List (List Char × List Char)) : List Char :=
  match matchFrontMatter content with
  | some (fm, rest) =>
    if fm = [] then
      openMarker ++ jsTrim (buildFrontMatter [] data) ++ closeNl ++ content
    else
      openMarker ++ jsTrim (buildFrontMatter fm data) ++ nlMarker ++ rest
  | none => openMarker ++ jsTrim (buildFrontMatter [] data) ++ closeNl ++ content

/-- `true` when a list is empty or starts with a non-whitespace character. -/
def headNotWS : List Char → Bool
  | [] => true
  | c :: _ => !isJsWS c

/-- Sanity conditions on one mapping entry, satisfied by the entries the
plugin builds (`created`/`modified` with `YYYY-MM-DD HH:mm:ss` values):
single-line key and value, key not starting with whitespace, key not starting
with `---`. -/
def saneEntry (kv : List Char × List Char) : Prop :=
  '\n' ∉ kv.1 ∧ '\r' ∉ kv.1 ∧ '\n' ∉ kv.2 ∧ '\r' ∉ kv.2 ∧
  headNotWS kv.1 = true ∧ threeDashes.isPrefixOf kv.1 = false

/-- Independence of two mapping entries: neither key's pattern `^key:` matches
the field line written for the other, and the keys differ (JavaScript `Record`
keys are unique).  Holds in particular for `created`/`modified`. -/
def indepEntry (a b : List Char × List Char) : Prop :=
  keyMatches a.1 (fieldLine b.1 b.2) = false ∧
  keyMatches b.1 (fieldLine a.1 a.2) = false ∧ a.1 ≠ b.1

instance : DecidablePred saneEntry := fun kv => by
  unfold saneEntry
  infer_instance

instance : DecidableRel indepEntry := fun a b => by
  unfold indepEntry
  infer_instance

/-- Sanity of a whole field mapping. -/
def saneData (m : List (List Char × List Char)) : Prop :=
  (∀ kv ∈ m, saneEntry kv) ∧ List.Pairwise indepEntry m

instance (m : List (List Char × List Char)) : Decidable (saneData m) := by
  unfold saneData
  infer_instance

/-- `true` when a list is empty or ends with a non-whitespace character. -/
def lastNotWS (cs : List Char) : Bool := headNotWS cs.reverse

/-! ### Prefix bookkeeping -/

theorem isPrefixOf_iff (a b : List Char) :
    a.isPrefixOf b = true ↔ ∃ t, b = a ++ t := by
  induction a generalizing b with
  | nil => simp [List.isPrefixOf]
  | cons x xs ih =>
    cases b with
    | nil => simp [List.isPrefixOf]
    | cons y ys =>
      simp only [List.isPrefixOf, Bool.and_eq_true, beq_iff_eq, ih, List.cons_append]
      constructor
      · rintro ⟨rfl, t, rfl⟩; exact ⟨t, rfl⟩
      · rintro ⟨t, h⟩
        injection h with h1 h2
        exact ⟨h1.symm, t, h2⟩

theorem prefix_comparable {a b c : List Char} (ha : ∃ t, c = a ++ t)
    (hb : ∃ t, c = b ++ t) : (∃ t, b = a ++ t) ∨ ∃ t, a = b ++ t := by
  induction a generalizing b c with
  | nil => exact Or.inl ⟨b, rfl⟩
  | cons x xs ih =>
    cases b with
    | nil => exact Or.inr ⟨x :: xs, rfl⟩
    | cons y ys =>
      obtain ⟨t, rfl⟩ := ha
      obtain ⟨s, hs⟩ := hb
      injection hs with h1 h2
      subst h1
      rcases ih ⟨t, rfl⟩ ⟨s, h2⟩ with ⟨u, hu⟩ | ⟨u, hu⟩
      · exact Or.inl ⟨u, by simp [hu]⟩
      · exact Or.inr ⟨u, by simp [hu]⟩

/-! ### `dropWhile`, `dtw` and `jsTrim` -/

theorem dropWhile_append_pos {p : Char → Bool} {xs ys : List Char}
    (h : xs.dropWhile p ≠ []) :
    (xs ++ ys).dropWhile p = xs.dropWhile p ++ ys := by
  induction xs with
  | nil => simp at h
  | cons x xs ih =>
    by_cases hx : p x
    · rw [List.cons_append, List.dropWhile_cons_of_pos hx]
      rw [List.dropWhile_cons_of_pos hx] at h ⊢
      exact ih h
    · rw [List.cons_append, List.dropWhile_cons_of_neg hx,
        List.dropWhile_cons_of_neg hx, List.cons_append]

theorem dropWhile_append_neg {p : Char → Bool} {xs ys : List Char}
    (h : ∀ c ∈ xs, p c = true) :
    (xs ++ ys).dropWhile p = ys.dropWhile p := by
  induction xs with
  | nil => rfl
  | cons x xs ih =>
    rw [List.cons_append, List.dropWhile_cons_of_pos (h x (by simp))]
    exact ih fun c hc => h c (by simp [hc])

theorem dropWhile_ne_nil {p : Char → Bool} {cs : List Char}
    (h : ∃ c ∈ cs, p c = false) : cs.dropWhile p ≠ [] := by
  induction cs with
  | nil => simp at h
  | cons x xs ih =>
    by_cases hx : p x
    · rw [List.dropWhile_cons_of_pos hx]
      obtain ⟨c, hc, hcp⟩ := h
      rcases List.mem_cons.mp hc with rfl | hc2
      · rw [hcp] at hx; cases hx
      · exact ih ⟨c, hc2, hcp⟩
    · rw [List.dropWhile_cons_of_neg hx]; simp

theorem dropWhile_head_false {p : Char → Bool} {cs : List Char} {c : Char}
    {t : List Char} (h : cs.dropWhile p = c :: t) : p c = false := by
  induction cs with
  | nil => simp at h
  | cons x xs ih =>
    by_cases hx : p x
    · rw [List.dropWhile_cons_of_pos hx] at h; exact ih h
    · rw [List.dropWhile_cons_of_neg hx] at h
      injection h with h1 _
      subst h1
      simpa using hx

theorem dtw_append_ws {xs ys : List Char} (h : ∀ c ∈ ys, isJsWS c = true) :
    dtw (xs ++ ys) = dtw xs := by
  unfold dtw
  rw [List.reverse_append, dropWhile_append_neg (by simpa using h)]

theorem dtw_append_right {xs ys : List Char}
    (h : ∃ c ∈ ys, isJsWS c = false) : dtw (xs ++ ys) = xs ++ dtw ys := by
  unfold dtw
  rw [List.reverse_append, dropWhile_append_pos (dropWhile_ne_nil (by simpa using h)),
    List.reverse_append, List.reverse_reverse]

theorem dtw_eq_self_of_last {xs : List Char} {c : Char}
    (hc : isJsWS c = false) : dtw (xs ++ [c]) = xs ++ [c] := by
  unfold dtw
  rw [List.reverse_append, List.reverse_singleton, List.singleton_append,
    List.dropWhile_cons_of_neg (by simp [hc]), List.reverse_cons,
    List.reverse_reverse]

theorem dtw_ne_nil {cs : List Char} (h : ∃ c ∈ cs, isJsWS c = false) :
    dtw cs ≠ [] := by
  unfold dtw
  intro hnil
  exact dropWhile_ne_nil (p := isJsWS) (by simpa using h) (by simpa using hnil)

theorem dtw_decomp (cs : List Char) :
    ∃ b, cs = dtw cs ++ b ∧ ∀ c ∈ b, isJsWS c = true := by
  refine ⟨(cs.reverse.takeWhile isJsWS).reverse, ?_, ?_⟩
  · conv_lhs => rw [← List.reverse_reverse cs,
      ← List.takeWhile_append_dropWhile (p := isJsWS) (l := cs.reverse)]
    rw [List.reverse_append]
    rfl
  · intro c hc
    rw [List.mem_reverse] at hc
    exact List.mem_takeWhile_imp hc

theorem dtw_shape (cs : List Char) :
    dtw cs = [] ∨ ∃ xs c, dtw cs = xs ++ [c] ∧ isJsWS c = false := by
  unfold dtw
  rcases h : cs.reverse.dropWhile isJsWS with _ | ⟨c, t⟩
  · exact Or.inl rfl
  · exact Or.inr ⟨t.reverse, c, by simp, dropWhile_head_false h⟩

theorem dtw_idem (cs : List Char) : dtw (dtw cs) = dtw cs := by
  rcases dtw_shape cs with h | ⟨xs, c, h, hc⟩
  · rw [h]; rfl
  · rw [h]; exact dtw_eq_self_of_last hc

theorem dtw_lastNotWS (cs : List Char) : lastNotWS (dtw cs) = true := by
  rcases dtw_shape cs with h | ⟨xs, c, h, hc⟩
  · rw [h]; rfl
  · rw [h]
    unfold lastNotWS
    rw [List.reverse_append, List.reverse_singleton, List.singleton_append]
    simp [headNotWS, hc]

theorem headNotWS_cons (c : Char) (t : List Char) :
    headNotWS (c :: t) = !isJsWS c := rfl

theorem dtw_eq_self_of_lastNotWS {cs : List Char} (h : lastNotWS cs = true) :
    dtw cs = cs := by
  unfold lastNotWS at h
  rcases hr : cs.reverse with _ | ⟨c, t⟩
  · have : cs = [] := by simpa using congrArg List.reverse hr
    rw [this]; rfl
  · rw [hr, headNotWS_cons] at h
    have hc : isJsWS c = false := by simpa using h
    have : cs = t.reverse ++ [c] := by
      have := congrArg List.reverse hr
      simpa using this
    rw [this]
    exact dtw_eq_self_of_last hc

/-! ### `splitLines` and `joinLines` -/

theorem splitLines_ne_nil (cs : List Char) : splitLines cs ≠ [] := by
  induction cs with
  | nil => simp [splitLines]
  | cons c cs ih =>
    unfold splitLines
    by_cases h : c = '\n'
    · simp [h]
    · simp only [if_neg h]
      split <;> simp

theorem splitLines_cons_nl (cs : List Char) :
    splitLines ('\n' :: cs) = [] :: splitLines cs := by
  simp [splitLines]

theorem splitLines_cons_eq {c : Char} {cs : List Char} (h : ¬ c = '\n') :
    ∃ l ls, splitLines cs = l :: ls ∧ splitLines (c :: cs) = (c :: l) :: ls := by
  rcases hs : splitLines cs with _ | ⟨l, ls⟩
  · exact absurd hs (splitLines_ne_nil cs)
  · refine ⟨l, ls, rfl, ?_⟩
    unfold splitLines
    rw [if_neg h, hs]

theorem joinLines_cons {l : List Char} {ls : List (List Char)} (h : ls ≠ []) :
    joinLines (l :: ls) = l ++ '\n' :: joinLines ls := by
  cases ls with
  | nil => cases h rfl
  | cons a as => rfl

theorem joinLines_splitLines (cs : List Char) :
    joinLines (splitLines cs) = cs := by
  induction cs with
  | nil => rfl
  | cons c cs ih =>
    by_cases h : c = '\n'
    · subst h
      rw [splitLines_cons_nl, joinLines_cons (splitLines_ne_nil cs), ih]
      rfl
    · obtain ⟨l, ls, hs, hc⟩ := splitLines_cons_eq h
      rw [hc]
      cases ls with
      | nil =>
        rw [hs] at ih
        exact congrArg (List.cons c) ih
      | cons a as =>
        rw [joinLines_cons (by simp)]
        rw [hs, joinLines_cons (by simp)] at ih
        simpa using ih

theorem splitLines_no_nl {cs : List Char} : ∀ l ∈ splitLines cs, '\n' ∉ l := by
  induction cs with
  | nil => simp [splitLines]
  | cons c cs ih =>
    by_cases h : c = '\n'
    · subst h
      rw [splitLines_cons_nl]
      intro l hl
      rcases List.mem_cons.mp hl with rfl | hl2
      · simp
      · exact ih l hl2
    · obtain ⟨l0, ls, hs, hc⟩ := splitLines_cons_eq h
      rw [hc]
      intro l hl
      rcases List.mem_cons.mp hl with rfl | hl2
      · intro hmem
        rcases List.mem_cons.mp hmem with hceq | hmem2
        · exact h hceq.symm
        · exact ih l0 (by rw [hs]; exact List.mem_cons_self _ _) hmem2
      · exact ih l (by rw [hs]; exact List.mem_cons_of_mem _ hl2)

theorem splitLines_append_cons (xs ys : List Char) :
    splitLines (xs ++ '\n' :: ys) = splitLines xs ++ splitLines ys := by
  induction xs with
  | nil => simp [splitLines_cons_nl, splitLines]
  | cons c xs ih =>
    by_cases h : c = '\n'
    · subst h
      rw [List.cons_append, splitLines_cons_nl, splitLines_cons_nl, ih]
      rfl
    · obtain ⟨l0, ls0, hs0, hc0⟩ := @splitLines_cons_eq _ xs h
      obtain ⟨l1, ls1, hs1, hc1⟩ := @splitLines_cons_eq _ (xs ++ '\n' :: ys) h
      rw [List.cons_append, hc1, hc0, List.cons_append]
      rw [ih, hs0] at hs1
      injection hs1 with e1 e2
      rw [e1, ← e2]
      rfl

theorem splitLines_singleton {l : List Char} (h : '\n' ∉ l) :
    splitLines l = [l] := by
  induction l with
  | nil => rfl
  | cons c t ih =>
    have hc : ¬ c = '\n' := fun e => h (by rw [e]; exact List.mem_cons_self _ _)
    obtain ⟨l0, ls, hs, hcc⟩ := splitLines_cons_eq hc
    rw [ih (fun hm => h (List.mem_cons_of_mem _ hm))] at hs
    injection hs with e1 e2
    rw [hcc, e1, e2]

theorem splitLines_joinLines {ls : List (List Char)} (hne : ls ≠ [])
    (h : ∀ l ∈ ls, '\n' ∉ l) : splitLines (joinLines ls) = ls := by
  induction ls with
  | nil => cases hne rfl
  | cons l ls ih =>
    cases ls with
    | nil => exact splitLines_singleton (h l (List.mem_cons_self _ _))
    | cons a as =>
      rw [joinLines_cons (by simp), splitLines_append_cons,
        splitLines_singleton (h l (List.mem_cons_self _ _)),
        ih (by simp) (fun x hx => h x (List.mem_cons_of_mem _ hx))]
      rfl

/-! ### `splitAtMarker`: first-occurrence characterisation -/

theorem nlMarker_isPrefixOf_iff (cs : List Char) :
    nlMarker.isPrefixOf cs = true ↔
      ∃ rest, cs = '\n' :: '-' :: '-' :: '-' :: rest := by
  rw [isPrefixOf_iff]
  constructor
  · rintro ⟨t, rfl⟩; exact ⟨t, rfl⟩
  · rintro ⟨t, rfl⟩; exact ⟨t, rfl⟩

theorem splitAtMarker_cons_marker {c : Char} {cs : List Char}
    (h : nlMarker.isPrefixOf (c :: cs) = true) :
    splitAtMarker (c :: cs) = some ([], cs.drop 3) := by
  unfold splitAtMarker
  rw [if_pos h]

theorem splitAtMarker_cons_neg_some {c : Char} {cs p q : List Char}
    (h : nlMarker.isPrefixOf (c :: cs) = false)
    (hs : splitAtMarker cs = some (p, q)) :
    splitAtMarker (c :: cs) = some (c :: p, q) := by
  unfold splitAtMarker
  rw [if_neg (by simp [h]), hs]

theorem splitAtMarker_cons_neg_none {c : Char} {cs : List Char}
    (h : nlMarker.isPrefixOf (c :: cs) = false)
    (hs : splitAtMarker cs = none) :
    splitAtMarker (c :: cs) = none := by
  unfold splitAtMarker
  rw [if_neg (by simp [h]), hs]

theorem splitAtMarker_cons_cases (c : Char) (cs : List Char) :
    nlMarker.isPrefixOf (c :: cs) = true ∨
      (nlMarker.isPrefixOf (c :: cs) = false ∧
        ((splitAtMarker cs = none ∧ splitAtMarker (c :: cs) = none) ∨
          ∃ p q, splitAtMarker cs = some (p, q) ∧
            splitAtMarker (c :: cs) = some (c :: p, q))) := by
  cases hm : nlMarker.isPrefixOf (c :: cs) with
  | true => exact Or.inl rfl
  | false =>
    refine Or.inr ⟨rfl, ?_⟩
    rcases hsam : splitAtMarker cs with _ | ⟨p, q⟩
    · exact Or.inl ⟨rfl, splitAtMarker_cons_neg_none hm hsam⟩
    · exact Or.inr ⟨p, q, rfl, splitAtMarker_cons_neg_some hm hsam⟩

theorem splitAtMarker_sound {cs pre post : List Char}
    (h : splitAtMarker cs = some (pre, post)) :
    cs = pre ++ nlMarker ++ post ∧ splitAtMarker pre = none := by
  induction cs generalizing pre post with
  | nil => simp [splitAtMarker] at h
  | cons c cs ih =>
    rcases splitAtMarker_cons_cases c cs with hm | ⟨hm, ⟨hn, hc⟩ | ⟨p, q, hp, hc⟩⟩
    · rw [splitAtMarker_cons_marker hm] at h
      simp only [Option.some.injEq, Prod.mk.injEq] at h
      obtain ⟨h1, h2⟩ := h
      subst h1
      obtain ⟨rest, hr⟩ := (nlMarker_isPrefixOf_iff _).mp hm
      injection hr with e1 e2
      subst e1
      subst e2
      subst h2
      exact ⟨by simp [nlMarker], rfl⟩
    · rw [hc] at h; cases h
    · rw [hc] at h
      simp only [Option.some.injEq, Prod.mk.injEq] at h
      obtain ⟨h1, h2⟩ := h
      subst h1
      subst h2
      obtain ⟨hcs, hpnone⟩ := ih hp
      refine ⟨by rw [hcs]; simp, ?_⟩
      have hm2 : nlMarker.isPrefixOf (c :: p) = false := by
        cases hb : nlMarker.isPrefixOf (c :: p)
        · rfl
        · exfalso
          obtain ⟨rest, hr⟩ := (nlMarker_isPrefixOf_iff _).mp hb
          injection hr with e1 e2
          have : nlMarker.isPrefixOf (c :: cs) = true := by
            rw [nlMarker_isPrefixOf_iff]
            refine ⟨rest ++ nlMarker ++ q, ?_⟩
            rw [hcs, e2, e1]
            simp
          rw [this] at hm; cases hm
      exact splitAtMarker_cons_neg_none hm2 hpnone

theorem splitAtMarker_eval {pre post : List Char}
    (h : splitAtMarker pre = none) :
    splitAtMarker (pre ++ nlMarker ++ post) = some (pre, post) := by
  induction pre with
  | nil =>
    show splitAtMarker ('\n' :: '-' :: '-' :: '-' :: post) = some ([], post)
    rw [splitAtMarker_cons_marker (by rw [nlMarker_isPrefixOf_iff]; exact ⟨post, rfl⟩)]
    rfl
  | cons c pre ih =>
    have hm : nlMarker.isPrefixOf (c :: pre) = false := by
      cases hb : nlMarker.isPrefixOf (c :: pre)
      · rfl
      · rw [splitAtMarker_cons_marker hb] at h; cases h
    have hpre : splitAtMarker pre = none := by
      rcases hsam : splitAtMarker pre with _ | ⟨p, q⟩
      · rfl
      · rw [splitAtMarker_cons_neg_some hm hsam] at h; cases h
    have hm2 : nlMarker.isPrefixOf (c :: (pre ++ nlMarker ++ post)) = false := by
      cases hb : nlMarker.isPrefixOf (c :: (pre ++ nlMarker ++ post))
      · rfl
      · exfalso
        obtain ⟨rest, hr⟩ := (nlMarker_isPrefixOf_iff _).mp hb
        injection hr with e1 e2
        rcases pre with _ | ⟨d, _ | ⟨e, _ | ⟨f, t⟩⟩⟩
        · simp [nlMarker] at e2
        · simp only [List.cons_append, List.nil_append, nlMarker] at e2
          injection e2 with f1 f2
          injection f2 with f3 f4
          exact absurd f3 (by simp)
        · simp only [List.cons_append, List.nil_append, nlMarker] at e2
          injection e2 with f1 f2
          injection f2 with f3 f4
          injection f4 with f5 f6
          exact absurd f5 (by simp)
        · simp only [List.cons_append, nlMarker] at e2
          injection e2 with f1 f2
          injection f2 with f3 f4
          injection f4 with f5 f6
          subst e1; subst f1; subst f3; subst f5
          rw [show nlMarker.isPrefixOf ('\n' :: '-' :: '-' :: '-' :: t) = true by
            rw [nlMarker_isPrefixOf_iff]; exact ⟨t, rfl⟩] at hm
          cases hm
    have : (c :: pre) ++ nlMarker ++ post = c :: (pre ++ nlMarker ++ post) := by simp
    rw [this]
    exact splitAtMarker_cons_neg_some hm2 (ih hpre)

theorem splitAtMarker_append_ne {a b : List Char} :
    splitAtMarker (a ++ nlMarker ++ b) ≠ none := by
  induction a with
  | nil =>
    rw [List.nil_append,
      show nlMarker ++ b = '\n' :: '-' :: '-' :: '-' :: b from rfl,
      splitAtMarker_cons_marker (by rw [nlMarker_isPrefixOf_iff]; exact ⟨b, rfl⟩)]
    simp
  | cons c a ih =>
    have : (c :: a) ++ nlMarker ++ b = c :: (a ++ nlMarker ++ b) := by simp
    rw [this]
    cases hb : nlMarker.isPrefixOf (c :: (a ++ nlMarker ++ b))
    · rcases hsam : splitAtMarker (a ++ nlMarker ++ b) with _ | ⟨p, q⟩
      · exact absurd hsam ih
      · rw [splitAtMarker_cons_neg_some hb hsam]; simp
    · rw [splitAtMarker_cons_marker hb]; simp

theorem splitAtMarker_none_iff (cs : List Char) :
    splitAtMarker cs = none ↔ ∀ a b, cs ≠ a ++ nlMarker ++ b := by
  constructor
  · rintro h a b rfl
    exact splitAtMarker_append_ne h
  · intro h
    rcases hsam : splitAtMarker cs with _ | ⟨p, q⟩
    · rfl
    · exact absurd (splitAtMarker_sound hsam).1 (h p q)

theorem splitAtMarker_infix_none {cs u w : List Char}
    (h : splitAtMarker (u ++ cs ++ w) = none) : splitAtMarker cs = none := by
  rw [splitAtMarker_none_iff] at h ⊢
  rintro a b rfl
  exact h (u ++ a) (b ++ w) (by simp)

theorem jsTrim_decomp (cs : List Char) :
    ∃ a b, cs = a ++ jsTrim cs ++ b ∧ (∀ c ∈ a, isJsWS c = true) ∧
      ∀ c ∈ b, isJsWS c = true := by
  obtain ⟨b, hb, hbw⟩ := dtw_decomp (cs.dropWhile isJsWS)
  refine ⟨cs.takeWhile isJsWS, b, ?_, ?_, hbw⟩
  · show cs = cs.takeWhile isJsWS ++ dtw (cs.dropWhile isJsWS) ++ b
    conv_lhs => rw [← List.takeWhile_append_dropWhile (p := isJsWS) (l := cs), hb]
    rw [List.append_assoc]
  · intro c hc
    exact List.mem_takeWhile_imp hc

theorem splitAtMarker_jsTrim_none {cs : List Char}
    (h : splitAtMarker cs = none) : splitAtMarker (jsTrim cs) = none := by
  obtain ⟨a, b, hab, _, _⟩ := jsTrim_decomp cs
  rw [hab] at h
  exact splitAtMarker_infix_none h

theorem splitAtMarker_none_of_no_nl {cs : List Char} (h : '\n' ∉ cs) :
    splitAtMarker cs = none := by
  rw [splitAtMarker_none_iff]
  rintro a b rfl
  exact h (by simp [nlMarker])

theorem splitAtMarker_append_none {x z : List Char} (hx : '\n' ∉ x)
    (hz : splitAtMarker z = none) : splitAtMarker (x ++ z) = none := by
  induction x with
  | nil => simpa using hz
  | cons c x ih =>
    have hc : c ≠ '\n' := fun e => hx (by rw [e]; exact List.mem_cons_self _ _)
    have hm : nlMarker.isPrefixOf (c :: (x ++ z)) = false := by
      cases hb : nlMarker.isPrefixOf (c :: (x ++ z))
      · rfl
      · obtain ⟨rest, hr⟩ := (nlMarker_isPrefixOf_iff _).mp hb
        injection hr with h1 _
        exact absurd h1 hc
    rw [List.cons_append]
    exact splitAtMarker_cons_neg_none hm (ih fun hm2 => hx (List.mem_cons_of_mem _ hm2))

/-! ### Marker freedom of rebuilt line lists -/

theorem dash_of_append_other {k r : List Char} {c : Char} (hc : c ≠ '-')
    (h : threeDashes.isPrefixOf (k ++ c :: r) = true) :
    threeDashes.isPrefixOf k = true := by
  rcases k with _ | ⟨d, _ | ⟨e, _ | ⟨f, t⟩⟩⟩
  · obtain ⟨s, hs⟩ := (isPrefixOf_iff _ _).mp h
    injection hs with e1 _
    exact absurd e1 hc
  · obtain ⟨s, hs⟩ := (isPrefixOf_iff _ _).mp h
    injection hs with e1 hs
    injection hs with e2 _
    exact absurd e2 hc
  · obtain ⟨s, hs⟩ := (isPrefixOf_iff _ _).mp h
    injection hs with e1 hs
    injection hs with e2 hs
    injection hs with e3 _
    exact absurd e3 hc
  · obtain ⟨s, hs⟩ := (isPrefixOf_iff _ _).mp h
    injection hs with e1 hs
    injection hs with e2 hs
    injection hs with e3 _
    rw [isPrefixOf_iff]
    exact ⟨t, by rw [e1, e2, e3]; rfl⟩

theorem nlMarker_isPrefixOf_cons_nl (y : List Char) :
    nlMarker.isPrefixOf ('\n' :: y) = threeDashes.isPrefixOf y := by
  show (List.isPrefixOf ('\n' :: threeDashes) ('\n' :: y)) = _
  simp [List.isPrefixOf]

theorem splitAtMarker_cons_nl {y : List Char}
    (hd : threeDashes.isPrefixOf y = false) (hy : splitAtMarker y = none) :
    splitAtMarker ('\n' :: y) = none := by
  apply splitAtMarker_cons_neg_none _ hy
  rw [nlMarker_isPrefixOf_cons_nl, hd]

theorem joinLines_head_append (l : List Char) (t : List (List Char)) :
    ∃ w, joinLines (l :: t) = l ++ w := by
  cases t with
  | nil => exact ⟨[], by simp [joinLines]⟩
  | cons a as => exact ⟨'\n' :: joinLines (a :: as), joinLines_cons (by simp)⟩

theorem dash_joinLines {l : List Char} {t : List (List Char)}
    (hd : threeDashes.isPrefixOf l = false) :
    threeDashes.isPrefixOf (joinLines (l :: t)) = false := by
  cases t with
  | nil => simpa [joinLines] using hd
  | cons a as =>
    rw [joinLines_cons (by simp)]
    cases hb : threeDashes.isPrefixOf (l ++ '\n' :: joinLines (a :: as))
    · rfl
    · rw [dash_of_append_other (by decide) hb] at hd; cases hd

theorem joinLines_marker_none {ls : List (List Char)}
    (hnl : ∀ l ∈ ls, '\n' ∉ l)
    (hd : ∀ l ∈ ls.tail, threeDashes.isPrefixOf l = false) :
    splitAtMarker (joinLines ls) = none := by
  induction ls with
  | nil => rfl
  | cons l ls ih =>
    cases ls with
    | nil =>
      exact splitAtMarker_none_of_no_nl
        (by simpa [joinLines] using hnl l (List.mem_cons_self _ _))
    | cons a as =>
      rw [joinLines_cons (by simp)]
      apply splitAtMarker_append_none (hnl l (List.mem_cons_self _ _))
      apply splitAtMarker_cons_nl
      · exact dash_joinLines (hd a (by simp))
      · exact ih (fun x hx => hnl x (List.mem_cons_of_mem _ hx))
          (fun x hx => hd x (List.mem_cons_of_mem _ hx))

theorem joinLines_mid {s : List (List Char)} (hs : s ≠ []) (l : List Char)
    (t : List (List Char)) :
    ∃ u w, joinLines (s ++ l :: t) = u ++ '\n' :: (l ++ w) := by
  induction s with
  | nil => cases hs rfl
  | cons x s ih =>
    cases s with
    | nil =>
      obtain ⟨w, hw⟩ := joinLines_head_append l t
      refine ⟨x, w, ?_⟩
      rw [show ([x] ++ l :: t) = x :: l :: t from rfl,
        joinLines_cons (by simp), hw]
    | cons y s' =>
      obtain ⟨u, w, hw⟩ := ih (by simp)
      refine ⟨x ++ '\n' :: u, w, ?_⟩
      rw [show ((x :: y :: s') ++ l :: t) = x :: ((y :: s') ++ l :: t) from rfl,
        joinLines_cons (by simp), hw]
      simp

theorem tail_not_dash_of_none {cs : List Char} (h : splitAtMarker cs = none) :
    ∀ l ∈ (splitLines cs).tail, threeDashes.isPrefixOf l = false := by
  intro l hl
  rcases hx : splitLines cs with _ | ⟨x, rest⟩
  · exact absurd hx (splitLines_ne_nil cs)
  · rw [hx] at hl
    simp only [List.tail_cons] at hl
    obtain ⟨s, t, hst⟩ := List.append_of_mem hl
    cases hb : threeDashes.isPrefixOf l
    · rfl
    · exfalso
      obtain ⟨r, hr⟩ := (isPrefixOf_iff _ _).mp hb
      obtain ⟨u, w, hw⟩ := joinLines_mid (s := x :: s) (by simp) l t
      have hcs : cs = u ++ '\n' :: (l ++ w) := by
        conv_lhs => rw [← joinLines_splitLines cs, hx, hst]
        exact hw
      rw [hcs, hr] at h
      have : u ++ '\n' :: (threeDashes ++ r ++ w) = u ++ nlMarker ++ (r ++ w) := by
        simp [nlMarker, threeDashes]
      rw [show (threeDashes ++ r) ++ w = threeDashes ++ r ++ w from rfl, this] at h
      exact splitAtMarker_append_ne h

/-! ### Field lines and key matching -/

theorem keyPrefix_isPrefixOf_fieldLine (k v : List Char) :
    ∃ t, fieldLine k v = keyPrefix k ++ t :=
  ⟨' ' :: v, by simp [fieldLine, keyPrefix]⟩

theorem keyMatches_fieldLine_self (k v : List Char) :
    keyMatches k (fieldLine k v) = true := by
  unfold keyMatches
  rw [isPrefixOf_iff]
  exact keyPrefix_isPrefixOf_fieldLine k v

theorem fieldLine_no_nl {kv : List Char × List Char} (h : saneEntry kv) :
    '\n' ∉ fieldLine kv.1 kv.2 := by
  obtain ⟨h1, _, h2, _, _, _⟩ := h
  intro hm
  unfold fieldLine at hm
  rcases List.mem_append.mp hm with hm | hm
  · exact h1 hm
  · rcases List.mem_cons.mp hm with e | hm
    · cases e
    · rcases List.mem_cons.mp hm with e | hm
      · cases e
      · exact h2 hm

theorem fieldLine_head {k v : List Char} (hk : headNotWS k = true) :
    ∃ c r, fieldLine k v = c :: r ∧ isJsWS c = false := by
  cases k with
  | nil => exact ⟨':', ' ' :: v, rfl, by decide⟩
  | cons c k' =>
    rw [headNotWS_cons] at hk
    exact ⟨c, k' ++ ':' :: ' ' :: v, rfl, by simpa using hk⟩

theorem fieldLine_not_dash {kv : List Char × List Char} (h : saneEntry kv) :
    threeDashes.isPrefixOf (fieldLine kv.1 kv.2) = false := by
  cases hb : threeDashes.isPrefixOf (fieldLine kv.1 kv.2)
  · rfl
  · unfold fieldLine at hb
    have hd := h.2.2.2.2.2
    rw [dash_of_append_other (by decide) hb] at hd
    exact Bool.noConfusion hd

theorem mem_dtw {c : Char} {l : List Char} (h : c ∈ dtw l) : c ∈ l := by
  obtain ⟨b, hb, _⟩ := dtw_decomp l
  rw [hb]
  exact List.mem_append_left _ h

theorem keyMatches_dtw_fieldLine (k v : List Char) :
    keyMatches k (dtw (fieldLine k v)) = true := by
  have hf : fieldLine k v = (k ++ [':']) ++ ' ' :: v := by simp [fieldLine]
  unfold keyMatches
  rw [isPrefixOf_iff]
  by_cases hv : ∃ c ∈ ' ' :: v, isJsWS c = false
  · rw [hf, dtw_append_right hv]
    exact ⟨dtw (' ' :: v), rfl⟩
  · have hv2 : ∀ c ∈ ' ' :: v, isJsWS c = true := by
      intro c hc
      cases h3 : isJsWS c
      · exact absurd ⟨c, hc, h3⟩ hv
      · rfl
    rw [hf, dtw_append_ws hv2, dtw_eq_self_of_last (c := ':') (by decide)]
    exact ⟨[], by simp [keyPrefix]⟩

theorem keyMatches_false_of_indep {a b : List Char × List Char}
    (h : indepEntry a b) {l : List Char} (ha : keyMatches a.1 l = true) :
    keyMatches b.1 l = false := by
  cases hb : keyMatches b.1 l
  · rfl
  · exfalso
    unfold keyMatches at ha hb
    obtain ⟨t1, h1⟩ := (isPrefixOf_iff _ _).mp ha
    obtain ⟨t2, h2⟩ := (isPrefixOf_iff _ _).mp hb
    rcases prefix_comparable ⟨t1, h1⟩ ⟨t2, h2⟩ with ⟨u, hu⟩ | ⟨u, hu⟩
    · -- keyPrefix b.1 = keyPrefix a.1 ++ u, hence key a matches the field line of b
      obtain ⟨s, hs⟩ := keyPrefix_isPrefixOf_fieldLine b.1 b.2
      have : keyMatches a.1 (fieldLine b.1 b.2) = true := by
        unfold keyMatches
        rw [isPrefixOf_iff]
        exact ⟨u ++ s, by rw [hs, hu]; simp⟩
      have hfalse := h.1
      rw [this] at hfalse
      exact Bool.noConfusion hfalse
    · obtain ⟨s, hs⟩ := keyPrefix_isPrefixOf_fieldLine a.1 a.2
      have : keyMatches b.1 (fieldLine a.1 a.2) = true := by
        unfold keyMatches
        rw [isPrefixOf_iff]
        exact ⟨u ++ s, by rw [hs, hu]; simp⟩
      have hfalse := h.2.1
      rw [this] at hfalse
      exact Bool.noConfusion hfalse

theorem indepEntry_symm {a b : List Char × List Char} (h : indepEntry a b) :
    indepEntry b a :=
  ⟨h.2.1, h.1, h.2.2.symm⟩

theorem pairwise_key_eq {m : List (List Char × List Char)}
    (hp : List.Pairwise indepEntry m) {a b : List Char × List Char}
    (ha : a ∈ m) (hb : b ∈ m) (he : a.1 = b.1) : a = b := by
  induction m with
  | nil => cases ha
  | cons x m ih =>
    rcases List.mem_cons.mp ha with rfl | ha2 <;>
      rcases List.mem_cons.mp hb with h3 | hb2
    · rw [h3]
    · exact absurd he ((List.pairwise_cons.mp hp).1 b hb2).2.2
    · subst h3
      exact absurd he (Ne.symm ((List.pairwise_cons.mp hp).1 a ha2).2.2)
    · exact ih (List.pairwise_cons.mp hp).2 ha2 hb2

/-! ### `replaceLine` and `find?` -/

theorem replaceLine_cons (k v l : List Char) (ls : List (List Char)) :
    replaceLine k v (l :: ls) =
      if keyMatches k l then fieldLine k v :: ls
      else l :: replaceLine k v ls := rfl

theorem any_eq_false_iff_find? {p : List Char → Bool} {ls : List (List Char)} :
    ls.any p = false ↔ ls.find? p = none := by
  constructor
  · intro h
    rw [List.find?_eq_none]
    intro x hx hpx
    have : ls.any p = true := List.any_eq_true.mpr ⟨x, hx, hpx⟩
    rw [h] at this
    exact Bool.noConfusion this
  · intro h
    cases hb : ls.any p
    · rfl
    · obtain ⟨x, hx, hpx⟩ := List.any_eq_true.mp hb
      rw [List.find?_eq_none] at h
      exact absurd hpx (h x hx)

theorem find?_append_some {p : List Char → Bool} {as bs : List (List Char)}
    {a : List Char} (h : as.find? p = some a) :
    (as ++ bs).find? p = some a := by
  induction as with
  | nil => simp at h
  | cons x as ih =>
    by_cases px : p x = true
    · rw [List.find?_cons_of_pos _ px] at h
      rw [List.cons_append, List.find?_cons_of_pos _ px]
      exact h
    · rw [List.find?_cons_of_neg _ px] at h
      rw [List.cons_append, List.find?_cons_of_neg _ px]
      exact ih h

theorem find?_append_none {p : List Char → Bool} {as bs : List (List Char)}
    (h : as.find? p = none) : (as ++ bs).find? p = bs.find? p := by
  induction as with
  | nil => simp
  | cons x as ih =>
    rw [List.find?_eq_none] at h
    have px : ¬ p x = true := h x (List.mem_cons_self _ _)
    rw [List.cons_append, List.find?_cons_of_neg _ px]
    exact ih (by rw [List.find?_eq_none]; exact fun y hy => h y (List.mem_cons_of_mem _ hy))

theorem replaceLine_of_none {k v : List Char} {ls : List (List Char)}
    (h : ls.find? (keyMatches k) = none) : replaceLine k v ls = ls := by
  induction ls with
  | nil => rfl
  | cons l ls ih =>
    rw [List.find?_eq_none] at h
    have hl : ¬ keyMatches k l = true := h l (List.mem_cons_self _ _)
    rw [replaceLine_cons, if_neg hl,
      ih (by rw [List.find?_eq_none]; exact fun y hy => h y (List.mem_cons_of_mem _ hy))]

theorem replaceLine_append (k v : List Char) (xs ys : List (List Char)) :
    replaceLine k v (xs ++ ys) =
      if xs.any (keyMatches k) then replaceLine k v xs ++ ys
      else xs ++ replaceLine k v ys := by
  induction xs with
  | nil => simp
  | cons l xs ih =>
    by_cases hl : keyMatches k l = true
    · rw [List.cons_append, replaceLine_cons, if_pos hl, replaceLine_cons, if_pos hl,
        if_pos (by simp [List.any_cons, hl]), List.cons_append]
    · rw [List.cons_append, replaceLine_cons, if_neg hl, replaceLine_cons, if_neg hl, ih]
      have ha : (l :: xs).any (keyMatches k) = xs.any (keyMatches k) := by
        simp [List.any_cons, Bool.eq_false_iff.mpr hl]
      cases hx : xs.any (keyMatches k)
      · rw [ha, hx, if_neg (by simp), if_neg (by simp), List.cons_append]
      · rw [ha, hx, if_pos rfl, if_pos rfl, List.cons_append]

theorem replaceLine_find?_self {k v : List Char} {ls : List (List Char)}
    (h : ls.any (keyMatches k) = true) :
    (replaceLine k v ls).find? (keyMatches k) = some (fieldLine k v) := by
  induction ls with
  | nil => simp at h
  | cons l ls ih =>
    by_cases hl : keyMatches k l = true
    · rw [replaceLine_cons, if_pos hl,
        List.find?_cons_of_pos _ (keyMatches_fieldLine_self k v)]
    · rw [replaceLine_cons, if_neg hl, List.find?_cons_of_neg _ hl]
      rw [List.any_cons, Bool.or_eq_true] at h
      rcases h with h | h
      · exact absurd h hl
      · exact ih h

theorem find?_replaceLine_other {a b : List Char × List Char}
    (hab : indepEntry a b) {ls : List (List Char)} {L : List Char}
    (h : ls.find? (keyMatches a.1) = some L) :
    (replaceLine b.1 b.2 ls).find? (keyMatches a.1) = some L := by
  induction ls with
  | nil => simp at h
  | cons l ls ih =>
    by_cases hbl : keyMatches b.1 l = true
    · have hal : ¬ keyMatches a.1 l = true := by
        rw [keyMatches_false_of_indep (indepEntry_symm hab) hbl]
        simp
      rw [List.find?_cons_of_neg _ hal] at h
      rw [replaceLine_cons, if_pos hbl,
        List.find?_cons_of_neg _ (by rw [hab.1]; simp)]
      exact h
    · rw [replaceLine_cons, if_neg hbl]
      by_cases hal : keyMatches a.1 l = true
      · rw [List.find?_cons_of_pos _ hal] at h
        rw [List.find?_cons_of_pos _ hal]
        exact h
      · rw [List.find?_cons_of_neg _ hal] at h
        rw [List.find?_cons_of_neg _ hal]
        exact ih h

theorem any_replaceLine_other {a b : List Char × List Char}
    (hab : indepEntry a b) (ls : List (List Char)) :
    (replaceLine b.1 b.2 ls).any (keyMatches a.1) = ls.any (keyMatches a.1) := by
  induction ls with
  | nil => rfl
  | cons l ls ih =>
    by_cases hbl : keyMatches b.1 l = true
    · have hal : keyMatches a.1 l = false :=
        keyMatches_false_of_indep (indepEntry_symm hab) hbl
      rw [replaceLine_cons, if_pos hbl, List.any_cons, List.any_cons, hal, hab.1]
    · rw [replaceLine_cons, if_neg hbl, List.any_cons, List.any_cons, ih]

theorem replaceLine_mem {k v x : List Char} {ls : List (List Char)}
    (h : x ∈ replaceLine k v ls) : x ∈ ls ∨ x = fieldLine k v := by
  induction ls with
  | nil => exact absurd h (List.not_mem_nil x)
  | cons l ls ih =>
    rw [replaceLine_cons] at h
    split at h
    · rcases List.mem_cons.mp h with rfl | h2
      · exact Or.inr rfl
      · exact Or.inl (List.mem_cons_of_mem _ h2)
    · rcases List.mem_cons.mp h with rfl | h2
      · exact Or.inl (List.mem_cons_self _ _)
      · rcases ih h2 with h3 | h3
        · exact Or.inl (List.mem_cons_of_mem _ h3)
        · exact Or.inr h3

theorem replaceLine_ne_nil {k v : List Char} {ls : List (List Char)}
    (h : ls ≠ []) : replaceLine k v ls ≠ [] := by
  cases ls with
  | nil => cases h rfl
  | cons l ls =>
    rw [replaceLine_cons]
    split <;> simp

theorem replaceLine_concat_last {k v x : List Char} {xs : List (List Char)}
    (hxs : xs.find? (keyMatches k) = none) (hx : keyMatches k x = true) :
    replaceLine k v (xs ++ [x]) = xs ++ [fieldLine k v] := by
  rw [replaceLine_append, if_neg (by rw [any_eq_false_iff_find?.mpr hxs]; simp),
    replaceLine_cons, if_pos hx]

/-! ### Line-level view of the upsert loop -/

/-- Line-level version of one iteration of the upsert loop: the test `t` is a
function of the entry only, because the source evaluates the presence test on
the *original* front matter, not the accumulating one. -/
def lineStep (t : List Char × List Char → Bool) (ls : List (List Char))
    (kv : List Char × List Char) : List (List Char) :=
  if t kv then replaceLine kv.1 kv.2 ls else ls ++ [fieldLine kv.1 kv.2]

theorem fieldLine_no_nl2 {k v : List Char} (h1 : '\n' ∉ k) (h2 : '\n' ∉ v) :
    '\n' ∉ fieldLine k v := by
  intro hm
  unfold fieldLine at hm
  rcases List.mem_append.mp hm with hm | hm
  · exact h1 hm
  · rcases List.mem_cons.mp hm with e | hm
    · cases e
    · rcases List.mem_cons.mp hm with e | hm
      · cases e
      · exact h2 hm

theorem buildFrontMatter_lines (g : List Char)
    (m : List (List Char × List Char))
    (hm : ∀ kv ∈ m, '\n' ∉ kv.1 ∧ '\n' ∉ kv.2) :
    splitLines (buildFrontMatter g m) =
      m.foldl (lineStep fun kv => testProp kv.1 g) (splitLines g) := by
  unfold buildFrontMatter
  suffices h : ∀ (q : List (List Char × List Char)) (acc : List Char),
      (∀ kv ∈ q, '\n' ∉ kv.1 ∧ '\n' ∉ kv.2) →
      splitLines (q.foldl (upsertOne g) acc) =
        q.foldl (lineStep fun kv => testProp kv.1 g) (splitLines acc) from
    h m g hm
  intro q
  induction q with
  | nil => intro acc _; rfl
  | cons kv q ih =>
    intro acc hq
    rw [List.foldl_cons, List.foldl_cons,
      ih _ (fun x hx => hq x (List.mem_cons_of_mem _ hx))]
    congr 1
    unfold upsertOne lineStep
    by_cases htk : testProp kv.1 g = true
    · rw [if_pos htk, if_pos htk]
      unfold replaceProp
      apply splitLines_joinLines
        (replaceLine_ne_nil (splitLines_ne_nil acc))
      intro l hl
      rcases replaceLine_mem hl with h2 | h2
      · exact splitLines_no_nl l h2
      · rw [h2]
        exact fieldLine_no_nl2 (hq kv (List.mem_cons_self _ _)).1
          (hq kv (List.mem_cons_self _ _)).2
    · rw [if_neg htk, if_neg htk, splitLines_append_cons,
        splitLines_singleton (fieldLine_no_nl2 (hq kv (List.mem_cons_self _ _)).1
          (hq kv (List.mem_cons_self _ _)).2)]

/-- All lines are free of `\n`. -/
def NoNlL (ls : List (List Char)) : Prop := ∀ l ∈ ls, '\n' ∉ l

/-- No line after the first starts with `---`. -/
def TailNoDash (ls : List (List Char)) : Prop :=
  ∀ l ∈ ls.tail, threeDashes.isPrefixOf l = false

/-- The first line starts with a non-whitespace character. -/
def HeadNonWS (ls : List (List Char)) : Prop :=
  ∃ c r t, ls = (c :: r) :: t ∧ isJsWS c = false

/-- The last line either ends with a non-whitespace character, or is the
canonical field line of some entry of `m` whose key matches no earlier
line. -/
def LastOK (m : List (List Char × List Char)) (ls : List (List Char)) : Prop :=
  (∃ xs l, ls = xs ++ [l] ∧ l ≠ [] ∧ lastNotWS l = true) ∨
  ∃ xs kv, kv ∈ m ∧ ls = xs ++ [fieldLine kv.1 kv.2] ∧
    xs.find? (keyMatches kv.1) = none

theorem lineStep_ne_nil {t : List Char × List Char → Bool}
    {ls : List (List Char)} (h : ls ≠ []) (kv : List Char × List Char) :
    lineStep t ls kv ≠ [] := by
  unfold lineStep
  split
  · exact replaceLine_ne_nil h
  · simp

theorem lineStep_noNl {t : List Char × List Char → Bool}
    {ls : List (List Char)} {kv : List Char × List Char}
    (h : NoNlL ls) (hkv : saneEntry kv) : NoNlL (lineStep t ls kv) := by
  unfold lineStep
  intro l hl
  split at hl
  · rcases replaceLine_mem hl with h2 | h2
    · exact h l h2
    · rw [h2]; exact fieldLine_no_nl2 hkv.1 hkv.2.2.1
  · rcases List.mem_append.mp hl with h2 | h2
    · exact h l h2
    · rw [List.mem_singleton.mp h2]
      exact fieldLine_no_nl2 hkv.1 hkv.2.2.1

theorem lineStep_tailNoDash {t : List Char × List Char → Bool}
    {ls : List (List Char)} {kv : List Char × List Char}
    (h : TailNoDash ls) (hkv : saneEntry kv) :
    TailNoDash (lineStep t ls kv) := by
  unfold lineStep
  split
  · cases ls with
    | nil => intro l hl; cases hl
    | cons x xs =>
      rw [replaceLine_cons]
      split
      · exact h
      · intro l hl
        rcases replaceLine_mem hl with h2 | h2
        · exact h l h2
        · rw [h2]; exact fieldLine_not_dash hkv
  · cases ls with
    | nil =>
      intro l hl
      simp at hl
    | cons x xs =>
      rw [List.cons_append]
      intro l hl
      simp only [List.tail_cons] at hl
      rcases List.mem_append.mp hl with h2 | h2
      · exact h l h2
      · rw [List.mem_singleton.mp h2]
        exact fieldLine_not_dash hkv

theorem lineStep_headNonWS {t : List Char × List Char → Bool}
    {ls : List (List Char)} {kv : List Char × List Char}
    (h : HeadNonWS ls) (hkv : saneEntry kv) :
    HeadNonWS (lineStep t ls kv) := by
  obtain ⟨c, r, tl, rfl, hc⟩ := h
  unfold lineStep
  split
  · rw [replaceLine_cons]
    split
    · obtain ⟨c2, r2, hf, hc2⟩ := fieldLine_head (k := kv.1) (v := kv.2) hkv.2.2.2.2.1
      exact ⟨c2, r2, tl, by rw [hf], hc2⟩
    · exact ⟨c, r, _, rfl, hc⟩
  · exact ⟨c, r, tl ++ [fieldLine kv.1 kv.2], by simp, hc⟩

theorem indep_of_mem {m : List (List Char × List Char)}
    (hp : List.Pairwise indepEntry m) {a b : List Char × List Char}
    (ha : a ∈ m) (hb : b ∈ m) (hne : a ≠ b) : indepEntry a b := by
  induction m with
  | nil => cases ha
  | cons x m ih =>
    rcases List.mem_cons.mp ha with rfl | ha2 <;>
      rcases List.mem_cons.mp hb with h3 | hb2
    · exact absurd h3.symm hne
    · exact (List.pairwise_cons.mp hp).1 b hb2
    · subst h3
      exact indepEntry_symm ((List.pairwise_cons.mp hp).1 a ha2)
    · exact ih (List.pairwise_cons.mp hp).2 ha2 hb2

theorem lineStep_any_other {t : List Char × List Char → Bool}
    {ls : List (List Char)} {kv b : List Char × List Char}
    (hindep : indepEntry kv b) :
    (lineStep t ls kv).any (keyMatches b.1) = ls.any (keyMatches b.1) := by
  unfold lineStep
  split
  · exact any_replaceLine_other (indepEntry_symm hindep) ls
  · rw [List.any_append]
    simp [hindep.2.1]

theorem find?_lineStep_other {t : List Char × List Char → Bool}
    {ls : List (List Char)} {kv a : List Char × List Char}
    (hindep : indepEntry a kv) {L : List Char}
    (h : ls.find? (keyMatches a.1) = some L) :
    (lineStep t ls kv).find? (keyMatches a.1) = some L := by
  unfold lineStep
  split
  · exact find?_replaceLine_other hindep h
  · exact find?_append_some h

theorem lineStep_find_self {t : List Char × List Char → Bool}
    {ls : List (List Char)} {kv : List Char × List Char}
    (ht : ls.any (keyMatches kv.1) = t kv) :
    (lineStep t ls kv).find? (keyMatches kv.1) =
      some (fieldLine kv.1 kv.2) := by
  unfold lineStep
  by_cases htk : t kv = true
  · rw [if_pos htk]
    exact replaceLine_find?_self (by rw [ht]; exact htk)
  · rw [if_neg htk]
    have hany : ls.any (keyMatches kv.1) = false := by
      cases hb : ls.any (keyMatches kv.1)
      · rfl
      · rw [ht] at hb; exact absurd hb htk
    rw [find?_append_none (any_eq_false_iff_find?.mp hany)]
    exact List.find?_cons_of_pos _ (keyMatches_fieldLine_self kv.1 kv.2)

theorem foldl_lineStep_ne_nil {t : List Char × List Char → Bool}
    {q : List (List Char × List Char)} {ls : List (List Char)}
    (h : ls ≠ []) : q.foldl (lineStep t) ls ≠ [] := by
  induction q generalizing ls with
  | nil => exact h
  | cons kv q ih =>
    rw [List.foldl_cons]
    exact ih (lineStep_ne_nil h kv)

theorem foldl_lineStep_noNl {t : List Char × List Char → Bool}
    {q : List (List Char × List Char)} {ls : List (List Char)}
    (hq : ∀ kv ∈ q, saneEntry kv) (h : NoNlL ls) :
    NoNlL (q.foldl (lineStep t) ls) := by
  induction q generalizing ls with
  | nil => exact h
  | cons kv q ih =>
    rw [List.foldl_cons]
    exact ih (fun x hx => hq x (List.mem_cons_of_mem _ hx))
      (lineStep_noNl h (hq kv (List.mem_cons_self _ _)))

theorem foldl_lineStep_tailNoDash {t : List Char × List Char → Bool}
    {q : List (List Char × List Char)} {ls : List (List Char)}
    (hq : ∀ kv ∈ q, saneEntry kv) (h : TailNoDash ls) :
    TailNoDash (q.foldl (lineStep t) ls) := by
  induction q generalizing ls with
  | nil => exact h
  | cons kv q ih =>
    rw [List.foldl_cons]
    exact ih (fun x hx => hq x (List.mem_cons_of_mem _ hx))
      (lineStep_tailNoDash h (hq kv (List.mem_cons_self _ _)))

theorem foldl_lineStep_headNonWS {t : List Char × List Char → Bool}
    {q : List (List Char × List Char)} {ls : List (List Char)}
    (hq : ∀ kv ∈ q, saneEntry kv) (h : HeadNonWS ls) :
    HeadNonWS (q.foldl (lineStep t) ls) := by
  induction q generalizing ls with
  | nil => exact h
  | cons kv q ih =>
    rw [List.foldl_cons]
    exact ih (fun x hx => hq x (List.mem_cons_of_mem _ hx))
      (lineStep_headNonWS h (hq kv (List.mem_cons_self _ _)))

theorem foldl_lineStep_find {t : List Char × List Char → Bool}
    (q : List (List Char × List Char)) (ls : List (List Char))
    (hpq : List.Pairwise indepEntry q)
    (ht : ∀ kv ∈ q, ls.any (keyMatches kv.1) = t kv) :
    (∀ kv ∈ q, (q.foldl (lineStep t) ls).find? (keyMatches kv.1)
        = some (fieldLine kv.1 kv.2)) ∧
    ∀ a, (∀ kv ∈ q, indepEntry a kv) → ∀ L,
      ls.find? (keyMatches a.1) = some L →
        (q.foldl (lineStep t) ls).find? (keyMatches a.1) = some L := by
  induction q generalizing ls with
  | nil => exact ⟨by simp, fun a _ L h => by simpa using h⟩
  | cons kv q ih =>
    have pairs := List.pairwise_cons.mp hpq
    rw [List.foldl_cons]
    have ht' : ∀ b ∈ q, (lineStep t ls kv).any (keyMatches b.1) = t b := by
      intro b hb
      rw [lineStep_any_other (pairs.1 b hb)]
      exact ht b (List.mem_cons_of_mem _ hb)
    obtain ⟨ih1, ih2⟩ := ih (lineStep t ls kv) pairs.2 ht'
    constructor
    · intro b hb
      rcases List.mem_cons.mp hb with rfl | hb2
      · exact ih2 b (fun x hx => pairs.1 x hx) _
          (lineStep_find_self (ht b (List.mem_cons_self _ _)))
      · exact ih1 b hb2
    · intro a ha L hL
      exact ih2 a (fun x hx => ha x (List.mem_cons_of_mem _ hx)) L
        (find?_lineStep_other (ha kv (List.mem_cons_self _ _)) hL)

theorem lineStep_lastOK {m : List (List Char × List Char)}
    (hpairm : List.Pairwise indepEntry m)
    {t : List Char × List Char → Bool} {ls : List (List Char)}
    {kv : List Char × List Char} (hkv : kv ∈ m)
    (ht : ls.any (keyMatches kv.1) = t kv)
    (h : LastOK m ls) : LastOK m (lineStep t ls kv) := by
  unfold lineStep
  by_cases htk : t kv = true
  · rw [if_pos htk]
    rcases h with ⟨xs, l, rfl, hne, hlast⟩ | ⟨xs, kv0, hkv0, rfl, hfind⟩
    · rw [replaceLine_append]
      by_cases hx : xs.any (keyMatches kv.1) = true
      · rw [if_pos hx]
        exact Or.inl ⟨replaceLine kv.1 kv.2 xs, l, rfl, hne, hlast⟩
      · rw [if_neg hx, replaceLine_cons]
        by_cases hkl : keyMatches kv.1 l = true
        · rw [if_pos hkl]
          exact Or.inr ⟨xs, kv, hkv, rfl,
            any_eq_false_iff_find?.mp (by simpa using hx)⟩
        · rw [if_neg hkl]
          exact Or.inl ⟨xs, l, by simp [replaceLine], hne, hlast⟩
    · rw [replaceLine_append]
      by_cases hx : xs.any (keyMatches kv.1) = true
      · rw [if_pos hx]
        have hneq : kv ≠ kv0 := by
          rintro rfl
          rw [any_eq_false_iff_find?.mpr hfind] at hx
          exact Bool.noConfusion hx
        have hindep := indep_of_mem hpairm hkv hkv0 hneq
        refine Or.inr ⟨replaceLine kv.1 kv.2 xs, kv0, hkv0, rfl, ?_⟩
        rw [← any_eq_false_iff_find?,
          any_replaceLine_other (indepEntry_symm hindep)]
        exact any_eq_false_iff_find?.mpr hfind
      · rw [if_neg hx, replaceLine_cons]
        by_cases hkl : keyMatches kv.1 (fieldLine kv0.1 kv0.2) = true
        · rw [if_pos hkl]
          have heq : kv = kv0 := by
            by_contra hneq
            have hindep := indep_of_mem hpairm hkv hkv0 hneq
            rw [hindep.1] at hkl
            exact Bool.noConfusion hkl
          subst heq
          exact Or.inr ⟨xs, kv, hkv, rfl, hfind⟩
        · rw [if_neg hkl]
          exact Or.inr ⟨xs, kv0, hkv0, by simp [replaceLine], hfind⟩
  · rw [if_neg htk]
    have hany : ls.any (keyMatches kv.1) = false := by
      cases hb : ls.any (keyMatches kv.1)
      · rfl
      · rw [ht] at hb; exact absurd hb htk
    exact Or.inr ⟨ls, kv, hkv, rfl, any_eq_false_iff_find?.mp hany⟩

theorem foldl_lineStep_lastOK {m : List (List Char × List Char)}
    (hpairm : List.Pairwise indepEntry m)
    {t : List Char × List Char → Bool}
    (q : List (List Char × List Char)) (ls : List (List Char))
    (hq : ∀ kv ∈ q, kv ∈ m) (hpq : List.Pairwise indepEntry q)
    (ht : ∀ kv ∈ q, ls.any (keyMatches kv.1) = t kv)
    (h : LastOK m ls) : LastOK m (q.foldl (lineStep t) ls) := by
  induction q generalizing ls with
  | nil => exact h
  | cons kv q ih =>
    have pairs := List.pairwise_cons.mp hpq
    rw [List.foldl_cons]
    refine ih _ (fun x hx => hq x (List.mem_cons_of_mem _ hx)) pairs.2
      (fun b hb => ?_)
      (lineStep_lastOK hpairm (hq kv (List.mem_cons_self _ _))
        (ht kv (List.mem_cons_self _ _)) h)
    rw [lineStep_any_other (pairs.1 b hb)]
    exact ht b (List.mem_cons_of_mem _ hb)

/-! ### Trimming a rebuilt line list -/

theorem headNotWS_append_left {l z : List Char} (h : l ≠ []) :
    headNotWS (l ++ z) = headNotWS l := by
  cases l with
  | nil => cases h rfl
  | cons c r => rfl

theorem lastNotWS_concat {l z : List Char} (h : l ≠ []) :
    lastNotWS (z ++ l) = lastNotWS l := by
  unfold lastNotWS
  rw [List.reverse_append, headNotWS_append_left (by simpa using h)]

theorem lastNotWS_destruct {cs : List Char} (hne : cs ≠ [])
    (h : lastNotWS cs = true) :
    ∃ l c, cs = l ++ [c] ∧ isJsWS c = false := by
  unfold lastNotWS at h
  rcases hr : cs.reverse with _ | ⟨c, t⟩
  · exact absurd (by simpa using congrArg List.reverse hr) hne
  · rw [hr, headNotWS_cons] at h
    refine ⟨t.reverse, c, ?_, by simpa using h⟩
    have := congrArg List.reverse hr
    simpa using this

theorem joinLines_concat {xs : List (List Char)} (h : xs ≠ []) (l : List Char) :
    joinLines (xs ++ [l]) = joinLines xs ++ '\n' :: l := by
  induction xs with
  | nil => cases h rfl
  | cons x xs ih =>
    cases xs with
    | nil => rfl
    | cons a as =>
      have h1 : joinLines (x :: ((a :: as) ++ [l])) =
          x ++ '\n' :: joinLines ((a :: as) ++ [l]) := joinLines_cons (by simp)
      rw [show (x :: a :: as) ++ [l] = x :: ((a :: as) ++ [l]) from rfl, h1,
        ih (by simp), @joinLines_cons x (a :: as) (by simp)]
      simp

theorem jsTrim_of_head {c : Char} {z : List Char} (h : isJsWS c = false) :
    jsTrim (c :: z) = dtw (c :: z) := by
  unfold jsTrim
  rw [List.dropWhile_cons_of_neg (by simp [h])]

theorem jsTrim_cons_ws {c : Char} {z : List Char} (h : isJsWS c = true) :
    jsTrim (c :: z) = jsTrim z := by
  unfold jsTrim
  rw [List.dropWhile_cons_of_pos h]

theorem dtw_fieldLine_ne_nil (k v : List Char) : dtw (fieldLine k v) ≠ [] := by
  have := keyMatches_dtw_fieldLine k v
  unfold keyMatches at this
  obtain ⟨t, ht⟩ := (isPrefixOf_iff _ _).mp this
  rw [ht]
  simp [keyPrefix]

theorem keyMatches_dtw_mono {k l : List Char}
    (h : keyMatches k (dtw l) = true) : keyMatches k l = true := by
  unfold keyMatches at h ⊢
  rw [isPrefixOf_iff] at h ⊢
  obtain ⟨t, ht⟩ := h
  obtain ⟨b, hb, _⟩ := dtw_decomp l
  exact ⟨t ++ b, by rw [hb, ht]; simp⟩

theorem find?_concat_of_last_false {p : List Char → Bool}
    {xs : List (List Char)} {x L : List Char}
    (h : (xs ++ [x]).find? p = some L) (hx : p x = false) :
    xs.find? p = some L := by
  rcases hf : xs.find? p with _ | ⟨L'⟩
  · rw [find?_append_none hf, List.find?_cons_of_neg _ (by simp [hx])] at h
    simp at h
  · rw [find?_append_some hf] at h
    exact h

theorem replaceLine_id {k v : List Char} {ls : List (List Char)}
    (h : ls.find? (keyMatches k) = some (fieldLine k v)) :
    replaceLine k v ls = ls := by
  induction ls with
  | nil => simp at h
  | cons l ls ih =>
    by_cases hl : keyMatches k l = true
    · rw [List.find?_cons_of_pos _ hl] at h
      rw [replaceLine_cons, if_pos hl]
      injection h with h
      rw [h]
    · rw [List.find?_cons_of_neg _ hl] at h
      rw [replaceLine_cons, if_neg hl, ih h]

theorem fold_id {t : List Char × List Char → Bool}
    {q : List (List Char × List Char)} {ls : List (List Char)}
    (htt : ∀ kv ∈ q, t kv = true)
    (hfind : ∀ kv ∈ q, ls.find? (keyMatches kv.1) = some (fieldLine kv.1 kv.2)) :
    q.foldl (lineStep t) ls = ls := by
  induction q with
  | nil => rfl
  | cons kv q ih =>
    rw [List.foldl_cons]
    have hstep : lineStep t ls kv = ls := by
      unfold lineStep
      rw [if_pos (htt kv (List.mem_cons_self _ _)),
        replaceLine_id (hfind kv (List.mem_cons_self _ _))]
    rw [hstep]
    exact ih (fun x hx => htt x (List.mem_cons_of_mem _ hx))
      (fun x hx => hfind x (List.mem_cons_of_mem _ hx))

theorem fold_append_all {t : List Char × List Char → Bool}
    {q : List (List Char × List Char)}
    (htt : ∀ kv ∈ q, t kv = false) (ls : List (List Char)) :
    q.foldl (lineStep t) ls = ls ++ q.map fun kv => fieldLine kv.1 kv.2 := by
  induction q generalizing ls with
  | nil => simp
  | cons kv q ih =>
    rw [List.foldl_cons]
    have hstep : lineStep t ls kv = ls ++ [fieldLine kv.1 kv.2] := by
      unfold lineStep
      rw [if_neg (by simp [htt kv (List.mem_cons_self _ _)])]
    rw [hstep, ih (fun x hx => htt x (List.mem_cons_of_mem _ hx))]
    simp

theorem keyMatches_nil (k : List Char) : keyMatches k [] = false := by
  unfold keyMatches keyPrefix
  cases k <;> rfl

theorem testProp_nil (k : List Char) : testProp k [] = false := by
  unfold testProp
  show List.any [[]] (keyMatches k) = false
  simp [keyMatches_nil]

theorem fls_find {m : List (List Char × List Char)}
    (hpair : List.Pairwise indepEntry m) :
    ∀ kv ∈ m, (m.map fun x => fieldLine x.1 x.2).find? (keyMatches kv.1) =
      some (fieldLine kv.1 kv.2) := by
  induction m with
  | nil => simp
  | cons x m ih =>
    intro kv hkv
    rcases List.mem_cons.mp hkv with rfl | hkv2
    · rw [List.map_cons, List.find?_cons_of_pos _ (keyMatches_fieldLine_self _ _)]
    · have hindep := (List.pairwise_cons.mp hpair).1 kv hkv2
      rw [List.map_cons, List.find?_cons_of_neg _ (by simp [hindep.2.1])]
      exact ih (List.pairwise_cons.mp hpair).2 kv hkv2

theorem any_of_find? {p : List Char → Bool} {ls : List (List Char)}
    {L : List Char} (h : ls.find? p = some L) : ls.any p = true := by
  cases hb : ls.any p
  · rw [any_eq_false_iff_find?] at hb
    rw [hb] at h
    cases h
  · rfl

theorem trim_join {m : List (List Char × List Char)}
    (hsane : ∀ kv ∈ m, saneEntry kv) {lsA : List (List Char)}
    (hhead : HeadNonWS lsA) (hlast : LastOK m lsA) (hnl : NoNlL lsA) :
    jsTrim (joinLines lsA) ≠ [] ∧
    ((splitLines (jsTrim (joinLines lsA)) = lsA ∧
        jsTrim (joinLines lsA) = joinLines lsA) ∨
      ∃ xs kv0, kv0 ∈ m ∧ lsA = xs ++ [fieldLine kv0.1 kv0.2] ∧
        xs.find? (keyMatches kv0.1) = none ∧
        splitLines (jsTrim (joinLines lsA)) =
          xs ++ [dtw (fieldLine kv0.1 kv0.2)] ∧
        jsTrim (joinLines lsA) =
          joinLines (xs ++ [dtw (fieldLine kv0.1 kv0.2)])) := by
  obtain ⟨c, r, tl, hlsA, hc⟩ := hhead
  obtain ⟨w, hw⟩ := joinLines_head_append (c :: r) tl
  have hjoin : jsTrim (joinLines lsA) = dtw (joinLines lsA) := by
    rw [hlsA, hw, List.cons_append]
    exact jsTrim_of_head hc
  rcases hlast with ⟨xs, l, heq, hlne, hlws⟩ | ⟨xs, kv0, hkv0, heq, hfind⟩
  · have hstable : dtw (joinLines lsA) = joinLines lsA := by
      rw [heq]
      cases xs with
      | nil =>
        rw [show joinLines ([] ++ [l]) = l from rfl]
        exact dtw_eq_self_of_lastNotWS hlws
      | cons x xs' =>
        rw [joinLines_concat (by simp)]
        obtain ⟨l', ce, hl, hce⟩ := lastNotWS_destruct hlne hlws
        rw [hl, show '\n' :: (l' ++ [ce]) = ('\n' :: l') ++ [ce] from rfl,
          ← List.append_assoc]
        exact dtw_eq_self_of_last hce
    have hX : jsTrim (joinLines lsA) = joinLines lsA := hjoin.trans hstable
    refine ⟨?_, Or.inl ⟨?_, hX⟩⟩
    · rw [hX, hlsA, hw]
      simp
    · rw [hX]
      exact splitLines_joinLines (by rw [hlsA]; simp) hnl
  · have hkvs := hsane kv0 hkv0
    have hnlfl : '\n' ∉ fieldLine kv0.1 kv0.2 :=
      fieldLine_no_nl2 hkvs.1 hkvs.2.2.1
    have hcolon : (':' : Char) ∈ fieldLine kv0.1 kv0.2 := by simp [fieldLine]
    have hcolonws : isJsWS ':' = false := by decide
    cases xs with
    | nil =>
      have hjl : joinLines lsA = fieldLine kv0.1 kv0.2 := by rw [heq]; rfl
      have hX : jsTrim (joinLines lsA) = dtw (fieldLine kv0.1 kv0.2) := by
        rw [hjoin, hjl]
      refine ⟨by rw [hX]; exact dtw_fieldLine_ne_nil _ _,
        Or.inr ⟨[], kv0, hkv0, heq, hfind, ?_, by rw [hX]; rfl⟩⟩
      rw [hX, List.nil_append]
      exact splitLines_singleton fun hmem => hnlfl (mem_dtw hmem)
    | cons x xs' =>
      have hj1 : joinLines lsA =
          joinLines (x :: xs') ++ '\n' :: fieldLine kv0.1 kv0.2 := by
        rw [heq]
        exact joinLines_concat (by simp) _
      have hd1 : dtw ('\n' :: fieldLine kv0.1 kv0.2) =
          '\n' :: dtw (fieldLine kv0.1 kv0.2) := by
        rw [show '\n' :: fieldLine kv0.1 kv0.2 =
          ['\n'] ++ fieldLine kv0.1 kv0.2 from rfl,
          dtw_append_right ⟨':', hcolon, hcolonws⟩]
        rfl
      have hX : jsTrim (joinLines lsA) =
          joinLines ((x :: xs') ++ [dtw (fieldLine kv0.1 kv0.2)]) := by
        rw [hjoin, hj1,
          dtw_append_right ⟨':', List.mem_cons_of_mem _ hcolon, hcolonws⟩,
          hd1, joinLines_concat (by simp)]
      have hxcr : x = c :: r := by
        have h3 := hlsA.symm.trans heq
        injection h3 with e1 _
        exact e1.symm
      refine ⟨?_, Or.inr ⟨x :: xs', kv0, hkv0, heq, hfind, ?_, hX⟩⟩
      · rw [hX]
        obtain ⟨w3, hw3⟩ :=
          joinLines_head_append x (xs' ++ [dtw (fieldLine kv0.1 kv0.2)])
        rw [show (x :: xs') ++ [dtw (fieldLine kv0.1 kv0.2)] =
          x :: (xs' ++ [dtw (fieldLine kv0.1 kv0.2)]) from rfl, hw3, hxcr]
        simp
      · rw [hX]
        apply splitLines_joinLines (by simp)
        intro ll hll
        rcases List.mem_append.mp hll with h2 | h2
        · exact hnl ll (by rw [heq]; exact List.mem_append_left _ h2)
        · rw [List.mem_singleton.mp h2]
          exact fun hmem => hnlfl (mem_dtw hmem)

theorem restore_fold {m : List (List Char × List Char)}
    (hpair : List.Pairwise indepEntry m)
    {t : List Char × List Char → Bool}
    (htt : ∀ kv ∈ m, t kv = true) {lsA ls2 : List (List Char)}
    (hfind : ∀ kv ∈ m,
      lsA.find? (keyMatches kv.1) = some (fieldLine kv.1 kv.2))
    (hrel : ls2 = lsA ∨
      ∃ xs kv0, kv0 ∈ m ∧ lsA = xs ++ [fieldLine kv0.1 kv0.2] ∧
        xs.find? (keyMatches kv0.1) = none ∧
        ls2 = xs ++ [dtw (fieldLine kv0.1 kv0.2)]) :
    m.foldl (lineStep t) ls2 = lsA := by
  rcases hrel with rfl | ⟨xs, kv0, hkv0, hA, hxs, h2⟩
  · exact fold_id htt hfind
  · obtain ⟨p, s, hm⟩ := List.append_of_mem hkv0
    subst hm
    rw [List.pairwise_append] at hpair
    obtain ⟨hp1, hp2, hp3⟩ := hpair
    have hfind2 : ∀ kv ∈ p,
        ls2.find? (keyMatches kv.1) = some (fieldLine kv.1 kv.2) := by
      intro kv hkv
      have hind : indepEntry kv kv0 := hp3 kv hkv kv0 (List.mem_cons_self _ _)
      have hxs_some : xs.find? (keyMatches kv.1) = some (fieldLine kv.1 kv.2) := by
        apply find?_concat_of_last_false _ hind.1
        rw [← hA]
        exact hfind kv (List.mem_append_left _ hkv)
      rw [h2]
      exact find?_append_some hxs_some
    rw [List.foldl_append,
      fold_id (fun kv hkv => htt kv (List.mem_append_left _ hkv)) hfind2,
      List.foldl_cons]
    have hstep : lineStep t ls2 kv0 = lsA := by
      unfold lineStep
      rw [if_pos (htt kv0 hkv0), h2,
        replaceLine_concat_last hxs (keyMatches_dtw_fieldLine kv0.1 kv0.2), hA]
    rw [hstep]
    exact fold_id
      (fun kv hkv => htt kv
        (List.mem_append_right _ (List.mem_cons_of_mem _ hkv)))
      (fun kv hkv => hfind kv
        (List.mem_append_right _ (List.mem_cons_of_mem _ hkv)))

theorem second_call {m : List (List Char × List Char)}
    (hsane : ∀ kv ∈ m, saneEntry kv) (hpair : List.Pairwise indepEntry m)
    {lsA : List (List Char)}
    (hfind : ∀ kv ∈ m,
      lsA.find? (keyMatches kv.1) = some (fieldLine kv.1 kv.2))
    (hhead : HeadNonWS lsA) (hlast : LastOK m lsA) (hnl : NoNlL lsA) :
    jsTrim (joinLines lsA) ≠ [] ∧
    buildFrontMatter (jsTrim (joinLines lsA)) m = joinLines lsA := by
  obtain ⟨hne, hcases⟩ := trim_join hsane hhead hlast hnl
  refine ⟨hne, ?_⟩
  have hany : ∀ kv ∈ m, testProp kv.1 (jsTrim (joinLines lsA)) = true := by
    intro kv hkv
    unfold testProp
    rcases hcases with ⟨hsplit, _⟩ | ⟨xs, kv0, hkv0, hA, hxs, hsplit, _⟩
    · rw [hsplit]
      exact any_of_find? (hfind kv hkv)
    · rw [hsplit]
      by_cases hkveq : kv = kv0
      · subst hkveq
        rw [List.any_append]
        simp [keyMatches_dtw_fieldLine]
      · have hind := indep_of_mem hpair hkv hkv0 hkveq
        have hxs_some : xs.find? (keyMatches kv.1) =
            some (fieldLine kv.1 kv.2) := by
          apply find?_concat_of_last_false _ hind.1
          rw [← hA]
          exact hfind kv hkv
        rw [List.any_append, any_of_find? hxs_some]
        rfl
  have htrans := buildFrontMatter_lines (jsTrim (joinLines lsA)) m
    (fun kv hkv => ⟨(hsane kv hkv).1, (hsane kv hkv).2.2.1⟩)
  have hfold : m.foldl
      (lineStep fun kv => testProp kv.1 (jsTrim (joinLines lsA)))
      (splitLines (jsTrim (joinLines lsA))) = lsA := by
    apply restore_fold hpair (fun kv hkv => hany kv hkv) hfind
    rcases hcases with ⟨hsplit, _⟩ | ⟨xs, kv0, hkv0, hA, hxs, hsplit, _⟩
    · exact Or.inl hsplit
    · exact Or.inr ⟨xs, kv0, hkv0, hA, hxs, hsplit⟩
  have : splitLines (buildFrontMatter (jsTrim (joinLines lsA)) m) = lsA := by
    rw [htrans, hfold]
  calc buildFrontMatter (jsTrim (joinLines lsA)) m
      = joinLines (splitLines (buildFrontMatter (jsTrim (joinLines lsA)) m)) :=
        (joinLines_splitLines _).symm
    _ = joinLines lsA := by rw [this]

/-! ### Unfolding `matchFrontMatter` and `insertFrontMatter` -/

theorem matchFrontMatter_sound {d g rest : List Char}
    (h : matchFrontMatter d = some (g, rest)) :
    d = openMarker ++ g ++ nlMarker ++ rest ∧ splitAtMarker g = none := by
  unfold matchFrontMatter at h
  split at h
  case isTrue hp =>
    obtain ⟨hd4, hg⟩ := splitAtMarker_sound h
    obtain ⟨t, ht⟩ := (isPrefixOf_iff _ _).mp hp
    have hdrop : d.drop 4 = t := by rw [ht]; rfl
    have ht2 : t = g ++ nlMarker ++ rest := by rw [← hdrop]; exact hd4
    exact ⟨by rw [ht, ht2]; simp, hg⟩
  case isFalse => cases h

theorem matchFrontMatter_eval {g rest : List Char}
    (hg : splitAtMarker g = none) :
    matchFrontMatter (openMarker ++ g ++ nlMarker ++ rest) = some (g, rest) := by
  unfold matchFrontMatter
  rw [if_pos ((isPrefixOf_iff _ _).mpr ⟨g ++ nlMarker ++ rest, by simp⟩)]
  have hdrop : (openMarker ++ g ++ nlMarker ++ rest).drop 4 =
      g ++ nlMarker ++ rest := by
    rw [List.append_assoc, List.append_assoc,
      show openMarker ++ (g ++ (nlMarker ++ rest)) =
        '-' :: '-' :: '-' :: '\n' :: (g ++ (nlMarker ++ rest)) from rfl]
    rw [List.drop_succ_cons, List.drop_succ_cons, List.drop_succ_cons,
      List.drop_succ_cons, List.drop_zero, ← List.append_assoc]
  rw [hdrop]
  exact splitAtMarker_eval hg

theorem insertFrontMatter_eq_of_some {d g rest : List Char}
    (data : List (List Char × List Char))
    (h : matchFrontMatter d = some (g, rest)) (hg : g ≠ []) :
    insertFrontMatter d data =
      openMarker ++ jsTrim (buildFrontMatter g data) ++ nlMarker ++ rest := by
  unfold insertFrontMatter
  rw [h]
  show (if g = [] then
      openMarker ++ jsTrim (buildFrontMatter [] data) ++ closeNl ++ d
    else openMarker ++ jsTrim (buildFrontMatter g data) ++ nlMarker ++ rest) = _
  rw [if_neg hg]

theorem insertFrontMatter_eq_of_empty {d rest : List Char}
    (data : List (List Char × List Char))
    (h : matchFrontMatter d = some ([], rest)) :
    insertFrontMatter d data =
      openMarker ++ jsTrim (buildFrontMatter [] data) ++ closeNl ++ d := by
  unfold insertFrontMatter
  rw [h]
  show (if ([] : List Char) = [] then
      openMarker ++ jsTrim (buildFrontMatter [] data) ++ closeNl ++ d
    else openMarker ++ jsTrim (buildFrontMatter [] data) ++ nlMarker ++ rest) = _
  rw [if_pos rfl]

theorem insertFrontMatter_eq_of_none {d : List Char}
    (data : List (List Char × List Char))
    (h : matchFrontMatter d = none) :
    insertFrontMatter d data =
      openMarker ++ jsTrim (buildFrontMatter [] data) ++ closeNl ++ d := by
  unfold insertFrontMatter
  rw [h]

theorem splitLines_last {g : List Char} (hlast : lastNotWS g = true)
    (hgne : g ≠ []) :
    ∃ xs l, splitLines g = xs ++ [l] ∧ l ≠ [] ∧ lastNotWS l = true := by
  rcases List.eq_nil_or_concat (splitLines g) with hnil | ⟨xs, l, hxl⟩
  · exact absurd hnil (splitLines_ne_nil g)
  · rw [List.concat_eq_append] at hxl
    have hg : g = joinLines (xs ++ [l]) := by
      conv_lhs => rw [← joinLines_splitLines g, hxl]
    cases xs with
    | nil =>
      have hgl : g = l := by rw [hg]; rfl
      exact ⟨[], l, hxl, hgl ▸ hgne, hgl ▸ hlast⟩
    | cons x xs' =>
      have hg2 : g = joinLines (x :: xs') ++ '\n' :: l := by
        rw [hg, joinLines_concat (by simp)]
      have hlne : l ≠ [] := by
        rintro rfl
        rw [hg2, show ('\n' :: ([] : List Char)) = ['\n'] from rfl,
          lastNotWS_concat (by simp)] at hlast
        exact absurd hlast (by decide)
      have hl2 : lastNotWS l = true := by
        rw [hg2, show ('\n' :: l) = ['\n'] ++ l from rfl, ← List.append_assoc,
          lastNotWS_concat hlne] at hlast
        exact hlast
      exact ⟨x :: xs', l, hxl, hlne, hl2⟩

theorem replaceLine_mem_preserved {k v l : List Char} {ls : List (List Char)}
    (hl : l ∈ ls) (hno : keyMatches k l = false) : l ∈ replaceLine k v ls := by
  induction ls with
  | nil => cases hl
  | cons x ls ih =>
    rw [replaceLine_cons]
    rcases List.mem_cons.mp hl with rfl | h2
    · rw [if_neg (by simp [hno])]
      exact List.mem_cons_self _ _
    · split
      · exact List.mem_cons_of_mem _ h2
      · exact List.mem_cons_of_mem _ (ih h2)

theorem fold_mem_preserved {t : List Char × List Char → Bool}
    {q : List (List Char × List Char)} {ls : List (List Char)} {l : List Char}
    (hl : l ∈ ls) (hno : ∀ kv ∈ q, keyMatches kv.1 l = false) :
    l ∈ q.foldl (lineStep t) ls := by
  induction q generalizing ls with
  | nil => exact hl
  | cons kv q ih =>
    rw [List.foldl_cons]
    refine ih ?_ fun x hx => hno x (List.mem_cons_of_mem _ hx)
    unfold lineStep
    split
    · exact replaceLine_mem_preserved hl (hno kv (List.mem_cons_self _ _))
    · exact List.mem_append_left _ hl

theorem caseA_master {d g rest : List Char} {m : List (List Char × List Char)}
    (hm : matchFrontMatter d = some (g, rest)) (hgne : g ≠ [])
    (hsane : ∀ kv ∈ m, saneEntry kv) (hpair : List.Pairwise indepEntry m)
    (hhead : headNotWS g = true) (hlast : lastNotWS g = true) :
    matchFrontMatter (insertFrontMatter d m) =
      some (jsTrim (buildFrontMatter g m), rest) ∧
    insertFrontMatter (insertFrontMatter d m) m = insertFrontMatter d m ∧
    ∀ l ∈ splitLines g, (∀ kv ∈ m, keyMatches kv.1 l = false) →
      l ∈ splitLines (jsTrim (buildFrontMatter g m)) := by
  have hgnone : splitAtMarker g = none := (matchFrontMatter_sound hm).2
  have hnl0 : NoNlL (splitLines g) := fun l hl => splitLines_no_nl l hl
  have hdash0 : TailNoDash (splitLines g) := tail_not_dash_of_none hgnone
  have hhead0 : HeadNonWS (splitLines g) := by
    cases g with
    | nil => cases hgne rfl
    | cons c g' =>
      rw [headNotWS_cons] at hhead
      have hcws : isJsWS c = false := by simpa using hhead
      have hcne : ¬ c = '\n' := by
        intro e
        rw [e] at hcws
        exact absurd hcws (by decide)
      obtain ⟨l, ls, _, hc⟩ := splitLines_cons_eq hcne
      exact ⟨c, l, ls, hc, hcws⟩
  have hlast0 : LastOK m (splitLines g) := Or.inl (splitLines_last hlast hgne)
  have hfindA := (foldl_lineStep_find m (splitLines g) hpair fun kv _ => rfl).1
  have hheadA := foldl_lineStep_headNonWS
    (t := fun kv => testProp kv.1 g) hsane hhead0
  have hnlA := foldl_lineStep_noNl (t := fun kv => testProp kv.1 g) hsane hnl0
  have hdashA := foldl_lineStep_tailNoDash
    (t := fun kv => testProp kv.1 g) hsane hdash0
  have hlastA := foldl_lineStep_lastOK hpair m (splitLines g)
    (fun kv h => h) hpair (fun kv _ => rfl) hlast0
  have hsplitnfm : splitLines (buildFrontMatter g m) =
      m.foldl (lineStep fun kv => testProp kv.1 g) (splitLines g) :=
    buildFrontMatter_lines g m fun kv hkv =>
      ⟨(hsane kv hkv).1, (hsane kv hkv).2.2.1⟩
  have hnfmjoin : buildFrontMatter g m =
      joinLines (m.foldl (lineStep fun kv => testProp kv.1 g) (splitLines g)) := by
    conv_lhs => rw [← joinLines_splitLines (buildFrontMatter g m), hsplitnfm]
  obtain ⟨hXne, hbuild⟩ := second_call hsane hpair hfindA hheadA hlastA hnlA
  have hXeq : jsTrim (buildFrontMatter g m) =
      jsTrim (joinLines
        (m.foldl (lineStep fun kv => testProp kv.1 g) (splitLines g))) := by
    rw [hnfmjoin]
  have hsamjoin := joinLines_marker_none hnlA hdashA
  have hsamX : splitAtMarker (jsTrim (buildFrontMatter g m)) = none := by
    rw [hXeq]
    exact splitAtMarker_jsTrim_none hsamjoin
  have hr1 : insertFrontMatter d m =
      openMarker ++ jsTrim (buildFrontMatter g m) ++ nlMarker ++ rest :=
    insertFrontMatter_eq_of_some m hm hgne
  have hmr1 : matchFrontMatter (insertFrontMatter d m) =
      some (jsTrim (buildFrontMatter g m), rest) := by
    rw [hr1]
    exact matchFrontMatter_eval hsamX
  have hXne2 : jsTrim (buildFrontMatter g m) ≠ [] := by
    rw [hXeq]
    exact hXne
  refine ⟨hmr1, ?_, ?_⟩
  · rw [insertFrontMatter_eq_of_some m hmr1 hXne2, hr1]
    have hsame : buildFrontMatter (jsTrim (buildFrontMatter g m)) m =
        buildFrontMatter g m := by
      rw [hXeq]
      exact hbuild.trans hnfmjoin.symm
    rw [hsame]
  · intro l hl hno
    have hlA : l ∈ m.foldl (lineStep fun kv => testProp kv.1 g) (splitLines g) :=
      fold_mem_preserved hl hno
    obtain ⟨_, hcases⟩ := trim_join hsane hheadA hlastA hnlA
    rw [hXeq]
    rcases hcases with ⟨hsplit, _⟩ | ⟨xs, kv0, hkv0, hA, hxs, hsplit, _⟩
    · rw [hsplit]
      exact hlA
    · rw [hsplit]
      have hlne : l ≠ fieldLine kv0.1 kv0.2 := by
        intro e
        have hself := keyMatches_fieldLine_self kv0.1 kv0.2
        rw [← e, hno kv0 hkv0] at hself
        exact Bool.noConfusion hself
      rw [hA] at hlA
      rcases List.mem_append.mp hlA with h2 | h2
      · exact List.mem_append_left _ h2
      · exact absurd (List.mem_singleton.mp h2) hlne

theorem caseB_master {d : List Char} {m : List (List Char × List Char)}
    (hmm : matchFrontMatter d = none ∨
      ∃ rest, matchFrontMatter d = some ([], rest))
    (hmne : m ≠ []) (hsane : ∀ kv ∈ m, saneEntry kv)
    (hpair : List.Pairwise indepEntry m) :
    insertFrontMatter (insertFrontMatter d m) m = insertFrontMatter d m := by
  have hr1 : insertFrontMatter d m =
      openMarker ++ jsTrim (buildFrontMatter [] m) ++ closeNl ++ d := by
    rcases hmm with h | ⟨rest, h⟩
    · exact insertFrontMatter_eq_of_none m h
    · exact insertFrontMatter_eq_of_empty m h
  have hlines : splitLines (buildFrontMatter [] m) =
      [] :: m.map fun kv => fieldLine kv.1 kv.2 := by
    rw [buildFrontMatter_lines [] m
      (fun kv hkv => ⟨(hsane kv hkv).1, (hsane kv hkv).2.2.1⟩),
      show splitLines ([] : List Char) = [[]] from rfl,
      fold_append_all fun kv _ => testProp_nil kv.1]
    rfl
  have hflsne : (m.map fun kv => fieldLine kv.1 kv.2) ≠ [] := by
    cases m with
    | nil => cases hmne rfl
    | cons kv m' => simp
  have hnfm : buildFrontMatter [] m =
      '\n' :: joinLines (m.map fun kv => fieldLine kv.1 kv.2) := by
    conv_lhs => rw [← joinLines_splitLines (buildFrontMatter [] m), hlines]
    rw [joinLines_cons hflsne]
    rfl
  have hXeq : jsTrim (buildFrontMatter [] m) =
      jsTrim (joinLines (m.map fun kv => fieldLine kv.1 kv.2)) := by
    rw [hnfm, jsTrim_cons_ws (by decide)]
  have hfindB := fls_find hpair
  have hheadB : HeadNonWS (m.map fun kv => fieldLine kv.1 kv.2) := by
    cases m with
    | nil => cases hmne rfl
    | cons kv m' =>
      obtain ⟨c, r, heq, hc⟩ := fieldLine_head (k := kv.1) (v := kv.2)
        (hsane kv (List.mem_cons_self _ _)).2.2.2.2.1
      exact ⟨c, r, m'.map fun x => fieldLine x.1 x.2, by rw [List.map_cons, heq], hc⟩
  have hnlB : NoNlL (m.map fun kv => fieldLine kv.1 kv.2) := by
    intro l hl
    obtain ⟨kv, hkv, rfl⟩ := List.mem_map.mp hl
    exact fieldLine_no_nl2 (hsane kv hkv).1 (hsane kv hkv).2.2.1
  have hdashB : TailNoDash (m.map fun kv => fieldLine kv.1 kv.2) := by
    intro l hl
    obtain ⟨kv, hkv, rfl⟩ := List.mem_map.mp (List.mem_of_mem_tail hl)
    exact fieldLine_not_dash (hsane kv hkv)
  have hlastB : LastOK m (m.map fun kv => fieldLine kv.1 kv.2) := by
    rcases List.eq_nil_or_concat m with rfl | ⟨m', kvn, hmeq⟩
    · cases hmne rfl
    · rw [List.concat_eq_append] at hmeq
      right
      refine ⟨m'.map fun x => fieldLine x.1 x.2, kvn,
        by rw [hmeq]; exact List.mem_append_right _ (List.mem_cons_self _ _),
        by rw [hmeq, List.map_append]; rfl, ?_⟩
      rw [List.find?_eq_none]
      intro x hx
      obtain ⟨a, ha, rfl⟩ := List.mem_map.mp hx
      have hpair2 := hpair
      rw [hmeq, List.pairwise_append] at hpair2
      have hind := hpair2.2.2 a ha kvn (List.mem_cons_self _ _)
      simp [hind.2.1]
  obtain ⟨hXne, hbuild⟩ := second_call hsane hpair hfindB hheadB hlastB hnlB
  have hsamB := joinLines_marker_none hnlB hdashB
  have hsamX := splitAtMarker_jsTrim_none hsamB
  have hr1' : insertFrontMatter d m =
      openMarker ++ jsTrim (joinLines (m.map fun kv => fieldLine kv.1 kv.2)) ++
        nlMarker ++ ('\n' :: '\n' :: d) := by
    rw [hr1, hXeq, List.append_assoc
      (openMarker ++ jsTrim (joinLines (m.map fun kv => fieldLine kv.1 kv.2)))
      closeNl d,
      show closeNl ++ d = nlMarker ++ '\n' :: '\n' :: d from rfl,
      ← List.append_assoc]
  have hmr1 : matchFrontMatter (insertFrontMatter d m) =
      some (jsTrim (joinLines (m.map fun kv => fieldLine kv.1 kv.2)),
        '\n' :: '\n' :: d) := by
    rw [hr1']
    exact matchFrontMatter_eval hsamX
  rw [insertFrontMatter_eq_of_some m hmr1 hXne, hbuild]
  exact hr1'.symm

theorem jsTrim_headNotWS (cs : List Char) : headNotWS (jsTrim cs) = true := by
  unfold jsTrim
  rcases hd : dtw (cs.dropWhile isJsWS) with _ | ⟨c, r⟩
  · rfl
  · rw [headNotWS_cons]
    obtain ⟨b, hb, _⟩ := dtw_decomp (cs.dropWhile isJsWS)
    rw [hd] at hb
    have hc : isJsWS c = false :=
      dropWhile_head_false (t := r ++ b) (by rw [hb]; rfl)
    simp [hc]

theorem jsTrim_lastNotWS (cs : List Char) : lastNotWS (jsTrim cs) = true :=
  dtw_lastNotWS _

/-! ### Claims -/

/-- Claim C1, counterexample: upsert is *not* idempotent for every document and
mapping.  First failure: in `"---\n  created: x\nz\n---\nb"` the `created` line
is masked by leading spaces, so the first call appends a second `created` line
and `trim` then exposes the masked one, which the second call updates.  Second
failure: with the empty mapping on the empty document, each call prepends a
fresh empty header block. -/
theorem C1_counterexample :
    insertFrontMatter
        (insertFrontMatter ("---\n  created: x\nz\n---\nb").toList
          [(("created").toList, ("v").toList)])
        [(("created").toList, ("v").toList)] ≠
      insertFrontMatter ("---\n  created: x\nz\n---\nb").toList
        [(("created").toList, ("v").toList)] ∧
    insertFrontMatter (insertFrontMatter ([] : List Char) []) [] ≠
      insertFrontMatter ([] : List Char) [] := by
  constructor
  · decide
  · decide

/-- Claim C1 (amended): upsert is idempotent for every nonempty, sane field
mapping (single-line keys and values, keys not starting with whitespace or
`---`, pairwise independent keys — satisfied by `created`/`modified` with
timestamp values) on every document whose extracted header contents neither
start nor end with a whitespace character: applying `insertFrontMatter` a
second time with the same mapping returns a byte-identical string. -/
theorem C1_amended (d : List Char) (m : List (List Char × List Char))
    (hmne : m ≠ []) (hsane : saneData m)
    (hhead : headNotWS (innerContents d) = true)
    (hlast : lastNotWS (innerContents d) = true) :
    insertFrontMatter (insertFrontMatter d m) m = insertFrontMatter d m := by
  rcases hmf : matchFrontMatter d with _ | ⟨g, rest⟩
  · exact caseB_master (Or.inl hmf) hmne hsane.1 hsane.2
  · by_cases hg : g = []
    · subst hg
      exact caseB_master (Or.inr ⟨rest, hmf⟩) hmne hsane.1 hsane.2
    · have hinner : innerContents d = g := by
        unfold innerContents
        rw [hmf]
        rfl
      rw [hinner] at hhead hlast
      exact (caseA_master hmf hg hsane.1 hsane.2 hhead hlast).2.1

/-- Claim C1, witness: idempotence at a concrete document and the concrete
`created`/`modified` mapping. -/
theorem C1_amended_witness :
    insertFrontMatter
        (insertFrontMatter ("---\ntitle: note\n---\nbody").toList
          [(("created").toList, ("2024-01-01 00:00:00").toList),
            (("modified").toList, ("2024-01-02 03:04:05").toList)])
        [(("created").toList, ("2024-01-01 00:00:00").toList),
          (("modified").toList, ("2024-01-02 03:04:05").toList)] =
      insertFrontMatter ("---\ntitle: note\n---\nbody").toList
        [(("created").toList, ("2024-01-01 00:00:00").toList),
          (("modified").toList, ("2024-01-02 03:04:05").toList)] :=
  C1_amended _ _ (by decide) (by decide) (by decide) (by decide)

/-- Claim C2, counterexample: non-interference fails on a document whose
header block has empty inner contents.  `"---\n\n---tail"` has a block with
inner contents `""` and body `"tail"`; the code treats the empty capture
group as "no front matter" and prepends a second block, so the body after the
(new) header block is no longer byte-identical. -/
theorem C2_counterexample :
    bodyAfter (insertFrontMatter ("---\n\n---tail").toList
        [(("created").toList, ("x").toList)]) ≠
      bodyAfter ("---\n\n---tail").toList := by decide

/-- Claim C2 (amended): for every document with a *nonempty* extracted header
block whose contents neither start nor end with whitespace, and every sane
mapping, every header line matched by no key of the mapping is still present
in the result's header contents, and the body text after the header block is
byte-identical. -/
theorem C2_amended (d g rest : List Char) (m : List (List Char × List Char))
    (hm : matchFrontMatter d = some (g, rest)) (hg : g ≠ [])
    (hsane : saneData m)
    (hhead : headNotWS g = true) (hlast : lastNotWS g = true) :
    (∀ l ∈ splitLines g, (∀ kv ∈ m, keyMatches kv.1 l = false) →
      l ∈ splitLines (innerContents (insertFrontMatter d m))) ∧
    bodyAfter (insertFrontMatter d m) = bodyAfter d := by
  obtain ⟨hmr1, _, hsurv⟩ := caseA_master hm hg hsane.1 hsane.2 hhead hlast
  have hinner : innerContents (insertFrontMatter d m) =
      jsTrim (buildFrontMatter g m) := by
    unfold innerContents
    rw [hmr1]
    rfl
  have hbody1 : bodyAfter (insertFrontMatter d m) = rest := by
    unfold bodyAfter
    rw [hmr1]
    rfl
  have hbody2 : bodyAfter d = rest := by
    unfold bodyAfter
    rw [hm]
    rfl
  exact ⟨by rw [hinner]; exact hsurv, by rw [hbody1, hbody2]⟩

/-- Claim C2, witness: at a concrete document, the `title` line not named in
the mapping survives and the body is untouched. -/
theorem C2_amended_witness :
    ("title: note").toList ∈ splitLines (innerContents (insertFrontMatter
        ("---\ntitle: note\ncreated: 2000-01-01 00:00:00\n---\nbody").toList
        [(("created").toList, ("2024-06-01 12:00:00").toList)])) ∧
    bodyAfter (insertFrontMatter
        ("---\ntitle: note\ncreated: 2000-01-01 00:00:00\n---\nbody").toList
        [(("created").toList, ("2024-06-01 12:00:00").toList)]) =
      bodyAfter
        ("---\ntitle: note\ncreated: 2000-01-01 00:00:00\n---\nbody").toList := by
  obtain ⟨h1, h2⟩ := C2_amended
    ("---\ntitle: note\ncreated: 2000-01-01 00:00:00\n---\nbody").toList
    ("title: note\ncreated: 2000-01-01 00:00:00").toList
    ("\nbody").toList
    [(("created").toList, ("2024-06-01 12:00:00").toList)]
    (by decide) (by decide) (by decide) (by decide) (by decide)
  exact ⟨h1 _ (by decide) (by decide), h2⟩

/-- Claim C3, counterexample: a document that begins with a header block whose
inner contents are empty is *not* updated in place: the empty capture group is
falsy, so a second header block is prepended in front of the existing one
instead of replacing the marker-delimited region. -/
theorem C3_counterexample :
    matchFrontMatter ("---\n\n---more").toList =
        some ([], ("more").toList) ∧
    insertFrontMatter ("---\n\n---more").toList
        [(("modified").toList, ("2024-01-01 00:00:00").toList)] ≠
      openMarker ++ jsTrim (buildFrontMatter []
        [(("modified").toList, ("2024-01-01 00:00:00").toList)]) ++
        nlMarker ++ ("more").toList ∧
    insertFrontMatter ("---\n\n---more").toList
        [(("modified").toList, ("2024-01-01 00:00:00").toList)] =
      ("---\nmodified: 2024-01-01 00:00:00\n---\n\n---\n\n---more").toList := by
  refine ⟨by decide, by decide, by decide⟩

/-- Claim C3 (amended): for every document whose extracted header block has
*nonempty* inner contents, upsert replaces the original marker-delimited
region in place — the result is the opening marker line, the trimmed
accumulated contents, the closing marker, and then the text after the
original block's end, untouched. -/
theorem C3_amended (d g rest : List Char)
    (data : List (List Char × List Char))
    (hm : matchFrontMatter d = some (g, rest)) (hg : g ≠ []) :
    insertFrontMatter d data =
      openMarker ++ jsTrim (buildFrontMatter g data) ++ nlMarker ++ rest :=
  insertFrontMatter_eq_of_some data hm hg

/-- Claim C3, witness: in-place replacement at a concrete document. -/
theorem C3_amended_witness :
    insertFrontMatter ("---\na: 1\n---\ntext").toList
        [(("modified").toList, ("2024-01-01 00:00:00").toList)] =
      openMarker ++ jsTrim (buildFrontMatter ("a: 1").toList
        [(("modified").toList, ("2024-01-01 00:00:00").toList)]) ++
        nlMarker ++ ("\ntext").toList :=
  C3_amended _ _ _ _ (by decide) (by decide)

/-- Claim C4, counterexample: upsert with the empty mapping does *not* leave a
blockless document unchanged — it prepends an empty header block. -/
theorem C4_counterexample :
    matchFrontMatter ("body").toList = none ∧
    insertFrontMatter ("body").toList [] ≠ ("body").toList ∧
    insertFrontMatter ("body").toList [] = ("---\n\n---\n\nbody").toList := by
  refine ⟨by decide, by decide, by decide⟩

/-- Claim C4 (amended): with the empty mapping, a document with a nonempty
header block is rebuilt as the markers around the *trimmed* contents (so the
contents are unchanged exactly when they carry no leading/trailing
whitespace) with the body untouched; a document with no block, or with an
empty block, gets an empty header block `---\n\n---\n\n` prepended to the
whole original text. -/
theorem C4_amended (d : List Char) :
    (∀ g rest, matchFrontMatter d = some (g, rest) → g ≠ [] →
      insertFrontMatter d [] =
        openMarker ++ jsTrim g ++ nlMarker ++ rest) ∧
    ((matchFrontMatter d = none ∨
        ∃ rest, matchFrontMatter d = some ([], rest)) →
      insertFrontMatter d [] = openMarker ++ closeNl ++ d) := by
  constructor
  · intro g rest hm hg
    exact insertFrontMatter_eq_of_some [] hm hg
  · intro h
    have hjt : jsTrim (buildFrontMatter [] []) = [] := rfl
    rcases h with h | ⟨rest, h⟩
    · rw [insertFrontMatter_eq_of_none [] h, hjt]
      simp
    · rw [insertFrontMatter_eq_of_empty [] h, hjt]
      simp

/-- Claim C4, witness: both branches at concrete documents. -/
theorem C4_amended_witness :
    insertFrontMatter ("---\nk: v\n---x").toList [] =
        openMarker ++ jsTrim ("k: v").toList ++ nlMarker ++ ("x").toList ∧
    insertFrontMatter ("zzz").toList [] =
      openMarker ++ closeNl ++ ("zzz").toList :=
  ⟨(C4_amended _).1 _ _ (by decide) (by decide),
    (C4_amended _).2 (Or.inl (by decide))⟩

/-- Claim C5, counterexample: the pre-reassembly trim removes more than the
leading and trailing blank lines — `"  x: y"` has no blank lines at all, yet
the leading spaces of its first (non-blank) line are stripped. -/
theorem C5_counterexample :
    insertFrontMatter ("---\n  x: y\n---b").toList [] ≠
        ("---\n  x: y\n---b").toList ∧
    insertFrontMatter ("---\n  x: y\n---b").toList [] =
      ("---\nx: y\n---b").toList := by
  refine ⟨by decide, by decide⟩

/-- Claim C5 (amended): before reassembly the accumulated header contents are
trimmed with JavaScript `trim`: exactly a maximal run of whitespace characters
(spaces, tabs and newlines alike) is removed from each end — so whitespace at
the edges of the first and last non-blank lines is removed too — and the
trimmed contents, which neither start nor end with whitespace, are placed
between the markers with the body untouched. -/
theorem C5_amended (d g rest : List Char)
    (data : List (List Char × List Char))
    (hm : matchFrontMatter d = some (g, rest)) (hg : g ≠ []) :
    ∃ pre suf,
      buildFrontMatter g data =
        pre ++ jsTrim (buildFrontMatter g data) ++ suf ∧
      (∀ c ∈ pre, isJsWS c = true) ∧ (∀ c ∈ suf, isJsWS c = true) ∧
      headNotWS (jsTrim (buildFrontMatter g data)) = true ∧
      lastNotWS (jsTrim (buildFrontMatter g data)) = true ∧
      insertFrontMatter d data =
        openMarker ++ jsTrim (buildFrontMatter g data) ++ nlMarker ++ rest := by
  obtain ⟨a, b, hab, ha, hb⟩ := jsTrim_decomp (buildFrontMatter g data)
  exact ⟨a, b, hab, ha, hb, jsTrim_headNotWS _, jsTrim_lastNotWS _,
    insertFrontMatter_eq_of_some data hm hg⟩

/-- Claim C5, witness: the trim characterisation at a concrete document. -/
theorem C5_amended_witness :
    ∃ pre suf,
      buildFrontMatter ("  k: v").toList [] =
        pre ++ jsTrim (buildFrontMatter ("  k: v").toList []) ++ suf ∧
      (∀ c ∈ pre, isJsWS c = true) ∧ (∀ c ∈ suf, isJsWS c = true) ∧
      headNotWS (jsTrim (buildFrontMatter ("  k: v").toList [])) = true ∧
      lastNotWS (jsTrim (buildFrontMatter ("  k: v").toList [])) = true ∧
      insertFrontMatter ("---\n  k: v\n---tail").toList [] =
        openMarker ++ jsTrim (buildFrontMatter ("  k: v").toList []) ++
          nlMarker ++ ("tail").toList :=
  C5_amended ("---\n  k: v\n---tail").toList ("  k: v").toList
    ("tail").toList [] (by decide) (by decide)

/-- Claim C6: extraction is non-greedy.  On `"---\nfoo\n---\nmore\n---\n"`
the inner contents are exactly `"foo"`, matched to the first closing marker;
and in general a successful match decomposes the document as the opening
marker, the captured group — which contains no occurrence of `\n---` — and
the first closing marker. -/
theorem C6_nongreedy :
    matchFrontMatter ("---\nfoo\n---\nmore\n---\n").toList =
        some (("foo").toList, ("\nmore\n---\n").toList) ∧
    ∀ d g rest, matchFrontMatter d = some (g, rest) →
      d = openMarker ++ g ++ nlMarker ++ rest ∧ splitAtMarker g = none :=
  ⟨by decide, fun _ _ _ h => matchFrontMatter_sound h⟩

/-- Claim C6, witness: the general decomposition applied to a concrete
document. -/
theorem C6_nongreedy_witness :
    ("---\nabc\n---xyz").toList =
        openMarker ++ ("abc").toList ++ nlMarker ++ ("xyz").toList ∧
    splitAtMarker ("abc").toList = none :=
  C6_nongreedy.2 _ _ _ (by decide)

/-- Claim C7: insertion when absent — for every document with no header
block, upserting `created ↦ 2024-01-01 00:00:00` produces exactly
`---\ncreated: 2024-01-01 00:00:00\n---\n\n` followed by the original
document unchanged. -/
theorem C7_insertion_when_absent (d : List Char)
    (h : matchFrontMatter d = none) :
    insertFrontMatter d
        [(("created").toList, ("2024-01-01 00:00:00").toList)] =
      ("---\ncreated: 2024-01-01 00:00:00\n---\n\n").toList ++ d := by
  rw [insertFrontMatter_eq_of_none _ h,
    show openMarker ++ jsTrim (buildFrontMatter []
        [(("created").toList, ("2024-01-01 00:00:00").toList)]) ++ closeNl =
      ("---\ncreated: 2024-01-01 00:00:00\n---\n\n").toList from by decide]

/-- Claim C7, witness: insertion in front of a concrete blockless document. -/
theorem C7_insertion_when_absent_witness :
    insertFrontMatter ("hello world").toList
        [(("created").toList, ("2024-01-01 00:00:00").toList)] =
      ("---\ncreated: 2024-01-01 00:00:00\n---\n\n").toList ++
        ("hello world").toList :=
  C7_insertion_when_absent _ (by decide)

/-- Claim C8: the field presence test is case-sensitive and anchored to line
start: it returns `true` exactly when some line of the extracted header
contents is the field name, immediately followed by a colon, followed by the
rest of the line; in particular `createdAt: x` does not match the name
`created`, a mid-line occurrence does not match, and matching is
case-sensitive. -/
theorem C8_presence_test :
    (∀ content property : List Char,
      hasTimeProperty content property = true ↔
        ∃ l ∈ splitLines (innerContents content),
          ∃ t, l = property ++ ':' :: t) ∧
    hasTimeProperty ("---\ncreatedAt: x\n---").toList ("created").toList
        = false ∧
    hasTimeProperty ("---\nx created: 1\n---").toList ("created").toList
        = false ∧
    hasTimeProperty ("---\nCreated: 1\n---").toList ("created").toList
        = false := by
  refine ⟨?_, by decide, by decide, by decide⟩
  intro content property
  unfold hasTimeProperty testProp
  rw [List.any_eq_true]
  constructor
  · rintro ⟨l, hl, hp⟩
    obtain ⟨t, ht⟩ := (isPrefixOf_iff _ _).mp hp
    refine ⟨l, hl, t, ?_⟩
    rw [ht]
    simp [keyPrefix]
  · rintro ⟨l, hl, t, rfl⟩
    exact ⟨_, hl, (isPrefixOf_iff _ _).mpr ⟨t, by simp [keyPrefix]⟩⟩

/-- Claim C9, counterexample: a line merely *beginning* with `---` does close
the block.  In `"---\na: 1\n---x"` no line after the first is exactly `---`,
yet extraction recognises a block with inner contents `a: 1`, consuming the
leading `---` of the line `---x` and leaving `x` behind. -/
theorem C9_counterexample :
    splitLines ("---\na: 1\n---x").toList =
        [("---").toList, ("a: 1").toList, ("---x").toList] ∧
    matchFrontMatter ("---\na: 1\n---x").toList =
      some (("a: 1").toList, ("x").toList) := by
  refine ⟨by decide, by decide⟩

/-- Claim C9 (amended): extraction recognises a block iff the document starts
with the exact line `---` (the four characters `---\n`) followed by the inner
contents, followed by the four characters `\n---` — the *first* such
occurrence, regardless of what follows the three hyphens on that line. -/
theorem C9_amended (d g rest : List Char) :
    matchFrontMatter d = some (g, rest) ↔
      d = openMarker ++ g ++ nlMarker ++ rest ∧ splitAtMarker g = none := by
  constructor
  · exact matchFrontMatter_sound
  · rintro ⟨rfl, hg⟩
    exact matchFrontMatter_eval hg

/-- Claim C9, witness: the characterisation applied at a concrete document. -/
theorem C9_amended_witness :
    matchFrontMatter
        (openMarker ++ ("k: v").toList ++ nlMarker ++ ("Z").toList) =
      some (("k: v").toList, ("Z").toList) :=
  (C9_amended _ _ _).mpr ⟨rfl, by decide⟩

/-- Claim C10: when extraction finds no header block, the presence test is
`false` for every field name, even when a `name: value` line appears at the
start of a line in the body — the test only ever searches the extracted block
interior. -/
theorem C10_no_block_no_field (content property : List Char)
    (h : matchFrontMatter content = none) :
    hasTimeProperty content property = false := by
  unfold hasTimeProperty innerContents
  rw [h]
  exact testProp_nil property

/-- Claim C10, witness: a `created:` line at the very start of a blockless
document is not seen by the presence test. -/
theorem C10_no_block_no_field_witness :
    hasTimeProperty ("created: 2024-01-01 00:00:00\nbody").toList
        ("created").toList = false :=
  C10_no_block_no_field _ _ (by decide)

end AutoTimestamps
